import Mathlib

/-!
# Verification of the adansonia disk-usage scanner core (src/main.rs)

Shallow embedding of the core data model and operations:

* a filesystem path is a list of components, each component a list of bytes
  (Rust `PathBuf`; `Path::cmp`, `Path::starts_with` and `Path::components`
  all work component-wise, which the embedding mirrors via the lexicographic
  order on `List (List Nat)` and `List.IsPrefix`);
* `Info` is the Entry Record struct (path, depth, size, is_dir) with `u64`
  sizes modelled as `Nat` (the tool sums file sizes; wraparound would need a
  16-EiB tree and is out of scope of the claims);
* `scan` models the concurrent scanner: the traversal is sequentialised
  (the Scan Result is unordered and `preprocess` sorts it, so only the
  multiset of entries matters), and every `unwrap` on a fallible filesystem
  call is modelled by `Option`, `none` standing for the panic;
* `Tree.accumulate`, `Tree.preprocess`, `Tree.get` embed the methods of the
  same names, including the fixed `[u64; 4096]` accumulator (out-of-bounds
  indexing = `none`) and the binary searches of `Tree::get`.
-/

namespace Adansonia

/-- A path component: the bytes of one file name (Rust `OsStr`). -/
abbrev Comp := List Nat

/-- A filesystem path: its list of components (Rust `PathBuf`; for an
absolute path the first component models `Component::RootDir`).
Ordered by the lexicographic order on lists, matching `Path::cmp`,
which compares component-by-component. -/
abbrev PathT := List Comp

/-- The Entry Record: struct `Info` at src/main.rs lines 33-39. -/
structure Info where
  path : PathT
  depth : Nat
  size : Nat
  isDir : Bool
  deriving DecidableEq

instance : Inhabited Info := ⟨⟨[], 0, 0, false⟩⟩

/-- The metadata a `stat` of one filesystem object reports (the fields of
`std::fs::Metadata` the scanner reads), plus `statOk`: whether the stat
call succeeds (`entry.metadata()` at line 167 is `unwrap`ped). -/
structure FMeta where
  isLink : Bool
  dev : Nat
  sz : Nat
  statOk : Bool
  deriving DecidableEq

/-- A filesystem object as the scanner can observe it: a file or a
directory with named children; `readable` is whether `fs::read_dir`
succeeds on it (line 162 ignores the error). Symbolic links are carried
by `FMeta.isLink` (they are never followed, so their targets are not
modelled). -/
inductive FsNode where
  | file (nm : Comp) (m : FMeta)
  | dir (nm : Comp) (m : FMeta) (readable : Bool) (children : List FsNode)

namespace FsNode

def meta : FsNode → FMeta
  | .file _ m => m
  | .dir _ m _ _ => m

def name : FsNode → Comp
  | .file nm _ => nm
  | .dir nm _ _ _ => nm

end FsNode

mutual

/-- One child of the `read_dir` loop (src/main.rs lines 163-189): stat it
(`unwrap`: `none` models the worker panic), skip symlinks and entries on a
different device than the root, emit the Entry Record (directories with
size 0, files with their stat size), and expand directories. The push onto
the work-stealing deque at line 187 is modelled by direct recursion: the
Scan Result is unordered, so only the resulting multiset of entries
matters. -/
def scanChild (rootDev : Nat) (p : PathT) : FsNode → Option (List Info)
  | .file nm m =>
    if !m.statOk then none
    else if m.isLink || rootDev != m.dev then some []
    else some [⟨p ++ [nm], (p ++ [nm]).length, m.sz, false⟩]
  | .dir nm m readable cs =>
    if !m.statOk then none
    else if m.isLink || rootDev != m.dev then some []
    else
      match (if readable then scanForest rootDev (p ++ [nm]) cs else some []) with
      | some sub => some (⟨p ++ [nm], (p ++ [nm]).length, 0, true⟩ :: sub)
      | none => none

/-- The whole `read_dir` loop over the listing of one directory at path
`p`. -/
def scanForest (rootDev : Nat) (p : PathT) : List FsNode → Option (List Info)
  | [] => some []
  | c :: cs =>
    match scanChild rootDev p c with
    | some l1 =>
      match scanForest rootDev p cs with
      | some l2 => some (l1 ++ l2)
      | none => none
    | none => none

end

/-- `scan` (src/main.rs lines 103-221): the synthetic root Entry Record
(path, component count, the root's own stat size, `is_dir: true`, lines
201-206) plus the worker results. The root is stat'ed at line 106
(`unwrap`: `none` models the abort) and its device bounds the scan. -/
def scan (rootPath : PathT) (root : FsNode) : Option (List Info) :=
  match root with
  | .file _ m =>
    if !m.statOk then none
    else some [⟨rootPath, rootPath.length, m.sz, true⟩]
  | .dir _ m readable cs =>
    if !m.statOk then none
    else
      match (if readable then scanForest m.dev rootPath cs else some []) with
      | some sub => some (⟨rootPath, rootPath.length, m.sz, true⟩ :: sub)
      | none => none

/-- Comparison used by `par_sort_unstable_by(|a, b| a.path.cmp(&b.path))`
(line 63). -/
def infoLe (a b : Info) : Prop := a.path ≤ b.path

instance : DecidableRel infoLe := fun a b => inferInstanceAs (Decidable (a.path ≤ b.path))

instance : IsTotal Info infoLe := ⟨fun a b => le_total a.path b.path⟩

instance : IsTrans Info infoLe := ⟨fun _ _ _ h1 h2 => le_trans h1 h2⟩

/-- The sort step of `Tree::preprocess` (line 63). The source uses an
unstable parallel sort; on the distinct path keys of a Scan Result every
comparison sort by `infoLe` produces the same list, so a sort with a
convenient Mathlib API stands in. -/
def sortByPath (data : List Info) : List Info := List.insertionSort infoLe data

/-- The loop body state of `Tree::accumulate`: the fixed-size accumulator
`sums: [u64; 4096]` as a function (reads and writes are guarded by the
explicit `< 4096` bound checks that Rust performs; a failed check is the
out-of-bounds panic, modelled by `none`), plus `prev_depth`. Processes the
entries of the (already reversed) list in order, mirroring
`for i in (0..len).rev()` (lines 47-59). -/
def accumulateGo (sums : Nat → Nat) (prevDepth : Nat) : List Info → Option (List Info)
  | [] => some []
  | e :: rest =>
    if e.depth < prevDepth then
      if prevDepth < 4096 then
        let s1 := e.size + sums prevDepth
        let sums1 := Function.update sums prevDepth 0
        if e.depth < 4096 then
          match accumulateGo (Function.update sums1 e.depth (sums1 e.depth + s1)) e.depth rest with
          | some out => some ({ e with size := s1 } :: out)
          | none => none
        else none
      else none
    else
      if e.depth < 4096 then
        match accumulateGo (Function.update sums e.depth (sums e.depth + e.size)) e.depth rest with
        | some out => some (e :: out)
        | none => none
      else none

/-- `Tree::accumulate` (src/main.rs lines 47-59). -/
def Tree.accumulate (data : List Info) : Option (List Info) :=
  match accumulateGo (fun _ => 0) 0 data.reverse with
  | some out => some out.reverse
  | none => none

/-- `Tree::preprocess` (lines 61-71): sort by path, then accumulate. -/
def Tree.preprocess (data : List Info) : Option (List Info) :=
  Tree.accumulate (sortByPath data)

/-- Three-way comparison on paths, as `binary_search_by(|x| x.path.cmp(&p))`
uses it. -/
def pcmp (x y : PathT) : Ordering :=
  if x < y then .lt else if x = y then .eq else .gt

/-- Rust `slice::binary_search_by` (the exact divide-and-conquer loop of
the standard library, fuelled to stay structural; `Tree::get` supplies
fuel `data.length`, always enough since the interval halves). `none`
models `Err` (path absent), which `Tree::get` `unwrap`s into a panic. -/
def bsearchGo (data : List Info) (p : PathT) : Nat → Nat → Nat → Option Nat
  | 0, _, _ => none
  | fuel + 1, lo, hi =>
    if lo < hi then
      let mid := (lo + hi) / 2
      match pcmp (data.getD mid default).path p with
      | .lt => bsearchGo data p fuel (mid + 1) hi
      | .eq => some mid
      | .gt => bsearchGo data p fuel lo mid
    else none

/-- Rust `slice::partition_point` (binary search for the first element
that falsifies `pred`; total, like the original). -/
def ppointGo (l : List Info) (pred : Info → Bool) : Nat → Nat → Nat → Nat
  | 0, lo, _ => lo
  | fuel + 1, lo, hi =>
    if lo < hi then
      let mid := (lo + hi) / 2
      if pred (l.getD mid default) then ppointGo l pred fuel (mid + 1) hi
      else ppointGo l pred fuel lo mid
    else lo

/-- Comparison used by `items.sort_by(|a, b| b.size.cmp(&a.size))`
(line 86): descending by size; `sort_by` is stable, as is the model
sort. -/
def sizeGe (a b : Info) : Prop := b.size ≤ a.size

instance : DecidableRel sizeGe := fun a b => inferInstanceAs (Decidable (b.size ≤ a.size))

instance : IsTotal Info sizeGe := ⟨fun a b => le_total b.size a.size⟩

instance : IsTrans Info sizeGe := ⟨fun _ _ _ h1 h2 => le_trans h2 h1⟩

/-- `Tree::get` (src/main.rs lines 73-88): binary-search the exact path
(`unwrap`: `none` models the panic), extend by `partition_point` with
`starts_with`, keep the entries one component deeper, sort descending by
size. -/
def Tree.get (data : List Info) (p : PathT) : Option (List Info) :=
  match bsearchGo data p data.length 0 data.length with
  | none => none
  | some start =>
    let tail := data.drop start
    let e := ppointGo tail (fun x => p.isPrefixOf x.path) tail.length 0 tail.length
    let target := p.length + 1
    some (List.insertionSort sizeGe ((tail.take e).filter (fun x => x.depth == target)))

/-! ## Order-theoretic facts about component-wise path comparison

`Path::cmp` compares component lists lexicographically. The next lemmas
show that this order, unlike raw byte-string comparison of rendered
paths, makes every directory's descendant set a contiguous run: a strict
prefix sorts strictly below every extension, and anything lying between a
path and one of its extensions is itself an extension. -/

theorem path_lt_iff {p q : PathT} : p < q ↔ List.Lex (· < ·) p q := Iff.rfl

theorem path_le_iff {p q : PathT} : p ≤ q ↔ p = q ∨ List.Lex (· < ·) p q := Iff.rfl

theorem path_lex_of_prefix_ne : ∀ {p q : PathT}, p <+: q → p ≠ q → List.Lex (· < ·) p q
  | [], q, _, hne => by
    cases q with
    | nil => exact absurd rfl hne
    | cons b t => exact List.Lex.nil
  | a :: p, q, hpre, hne => by
    obtain ⟨t, rfl⟩ := hpre
    cases t with
    | nil => simp at hne
    | cons c t' =>
      refine List.Lex.cons (path_lex_of_prefix_ne ⟨c :: t', by simp⟩ ?_)
      intro h
      have := congrArg List.length h
      simp at this

/-- A strict prefix sorts strictly below every proper extension. -/
theorem path_lt_of_prefix_ne {p q : PathT} (h : p <+: q) (hne : p ≠ q) : p < q :=
  path_lt_iff.mpr (path_lex_of_prefix_ne h hne)

theorem prefix_of_lex_lex :
    ∀ {p r q : PathT}, List.Lex (· < ·) p r → List.Lex (· < ·) r q → p <+: q → p <+: r
  | [], r, _, _, _, _ => List.nil_prefix
  | a :: p', r, q, h1, h2, hpq => by
    obtain ⟨t, rfl⟩ := hpq
    cases r with
    | nil => exact absurd h1 (List.Lex.not_nil_right _ _)
    | cons b r' =>
      cases h1 with
      | rel hab =>
        cases h2 with
        | rel hba => exact absurd hab (lt_asymm hba)
        | cons h2' => exact absurd hab (lt_irrefl _)
      | cons h1' =>
        cases h2 with
        | rel hba => exact absurd hba (lt_irrefl _)
        | cons h2' =>
          exact List.cons_prefix_cons.mpr ⟨rfl, prefix_of_lex_lex h1' h2' (List.prefix_append p' t)⟩

/-- Convexity of the prefix relation under the path order: whatever lies
between a path and one of its extensions is itself an extension. -/
theorem path_prefix_of_between {p r q : PathT} (h1 : p ≤ r) (h2 : r ≤ q) (hpq : p <+: q) :
    p <+: r := by
  rcases path_le_iff.mp h1 with rfl | hlex1
  · exact List.prefix_refl p
  · rcases path_le_iff.mp h2 with rfl | hlex2
    · exact hpq
    · exact prefix_of_lex_lex hlex1 hlex2 hpq

/-- Sibling subtrees at differing first components compare by those
components, whatever follows. -/
theorem path_append_lt {p : PathT} {a b : Comp} {u v : PathT} (hab : a < b) :
    p ++ a :: u < p ++ b :: v :=
  path_lt_iff.mpr (List.Lex.append_left _ (List.Lex.rel hab) p)

/-- Two prefixes of the same path with equal lengths coincide. -/
theorem path_prefix_eq_of_length {q x y : PathT} (hx : x <+: q) (hy : y <+: q)
    (hlen : x.length = y.length) : x = y :=
  (List.prefix_of_prefix_length_le hx hy hlen.le).eq_of_length hlen

/-! ## Total decomposition of the scanner

`scanChild` interleaves two concerns: which entries come out, and
whether some `unwrap` panics. The next definitions separate them —
`flatChild`/`flatForest` give the emitted entries, `okChild`/`okForest`
say whether every stat on the traversed region succeeds — and
`scanChild_eq`/`scanForest_eq` prove the decomposition exact. -/

mutual

/-- The entries `scanChild` emits for one child (ignoring panics). -/
def flatChild (rootDev : Nat) (p : PathT) : FsNode → List Info
  | .file nm m =>
    if m.isLink || rootDev != m.dev then []
    else [⟨p ++ [nm], (p ++ [nm]).length, m.sz, false⟩]
  | .dir nm m readable cs =>
    if m.isLink || rootDev != m.dev then []
    else
      ⟨p ++ [nm], (p ++ [nm]).length, 0, true⟩ ::
        (if readable then flatForest rootDev (p ++ [nm]) cs else [])

/-- The entries `scanForest` emits for one directory listing. -/
def flatForest (rootDev : Nat) (p : PathT) : List FsNode → List Info
  | [] => []
  | c :: cs => flatChild rootDev p c ++ flatForest rootDev p cs

end

mutual

/-- Whether every `entry.metadata().unwrap()` on the traversed region
under one child succeeds (children of skipped or unreadable directories
are never stat'ed). -/
def okChild (rootDev : Nat) : FsNode → Bool
  | .file _ m => m.statOk
  | .dir _ m readable cs =>
    m.statOk && (m.isLink || rootDev != m.dev || !readable || okForest rootDev cs)

def okForest (rootDev : Nat) : List FsNode → Bool
  | [] => true
  | c :: cs => okChild rootDev c && okForest rootDev cs

end

mutual

/-- The raw bytes one child contributes to its ancestors: stat sizes of
all reachable, same-device, non-symlinked files below (and including) it.
Skipped children contribute 0; directory inodes contribute 0 (the scanner
emits directories with size 0). -/
def childTotal (rootDev : Nat) : FsNode → Nat
  | .file _ m => if m.isLink || rootDev != m.dev then 0 else m.sz
  | .dir _ m readable cs =>
    if m.isLink || rootDev != m.dev then 0
    else if readable then forestTotal rootDev cs else 0

def forestTotal (rootDev : Nat) : List FsNode → Nat
  | [] => 0
  | c :: cs => childTotal rootDev c + forestTotal rootDev cs

end

mutual

/-- `flatChild` with every directory entry already carrying its subtree
total — the intended output of the Aggregation Pass. -/
def flatChildA (rootDev : Nat) (p : PathT) : FsNode → List Info
  | .file nm m =>
    if m.isLink || rootDev != m.dev then []
    else [⟨p ++ [nm], (p ++ [nm]).length, m.sz, false⟩]
  | .dir nm m readable cs =>
    if m.isLink || rootDev != m.dev then []
    else
      ⟨p ++ [nm], (p ++ [nm]).length, if readable then forestTotal rootDev cs else 0, true⟩ ::
        (if readable then flatForestA rootDev (p ++ [nm]) cs else [])

def flatForestA (rootDev : Nat) (p : PathT) : List FsNode → List Info
  | [] => []
  | c :: cs => flatChildA rootDev p c ++ flatForestA rootDev p cs

end

mutual

theorem scanChild_eq (rootDev : Nat) (p : PathT) :
    ∀ c, scanChild rootDev p c =
      if okChild rootDev c then some (flatChild rootDev p c) else none
  | .file nm m => by
    simp only [scanChild, okChild, flatChild]
    cases m.statOk <;> cases hs : (m.isLink || rootDev != m.dev) <;> simp [hs]
  | .dir nm m readable cs => by
    simp only [scanChild, okChild, flatChild]
    cases hst : m.statOk
    · simp
    · cases hl : m.isLink
      · cases hd : (rootDev != m.dev)
        · cases readable
          · simp [hl, hd]
          · rw [scanForest_eq rootDev (p ++ [nm]) cs]
            cases hok : okForest rootDev cs <;> simp [hl, hd, hok]
        · simp [hl, hd]
      · simp [hl]

theorem scanForest_eq (rootDev : Nat) (p : PathT) :
    ∀ cs, scanForest rootDev p cs =
      if okForest rootDev cs then some (flatForest rootDev p cs) else none
  | [] => by simp [scanForest, okForest, flatForest]
  | c :: cs => by
    simp only [scanForest, okForest, flatForest]
    rw [scanChild_eq rootDev p c, scanForest_eq rootDev p cs]
    cases hc : okChild rootDev c <;> cases hcs : okForest rootDev cs <;> simp

end

mutual

/-- Well-formed filesystem model: at every level the children carry
strictly increasing (hence distinct) names. A real directory's children
are a set of distinct names, so every filesystem has exactly one
well-formed representation up to the sizes; the scan's output is
unordered and gets sorted, so sibling order in the model is
immaterial. -/
def wfChild : FsNode → Bool
  | .file _ _ => true
  | .dir _ _ _ cs => wfForest cs

def wfForest : List FsNode → Bool
  | [] => true
  | c :: cs => wfChild c && wfForest cs && cs.all (fun c2 => decide (c.name < c2.name))

end

mutual

/-- All entry depths below one child stay under the 4096 slots of the
`sums` array; `d` is the depth at which the child's own entry lands. -/
def depthsOkChild (d : Nat) : FsNode → Bool
  | .file _ _ => decide (d < 4096)
  | .dir _ _ _ cs => decide (d < 4096) && depthsOkForest (d + 1) cs

def depthsOkForest (d : Nat) : List FsNode → Bool
  | [] => true
  | c :: cs => depthsOkChild d c && depthsOkForest d cs

end

theorem flatChild_eq_nil_iff (rootDev : Nat) (p : PathT) (c : FsNode) :
    flatChild rootDev p c = [] ↔ (c.meta.isLink || rootDev != c.meta.dev) = true := by
  cases c with
  | file nm m =>
    simp only [flatChild, FsNode.meta]
    cases m.isLink || rootDev != m.dev <;> simp
  | dir nm m readable cs =>
    simp only [flatChild, FsNode.meta]
    cases m.isLink || rootDev != m.dev <;> simp

theorem childTotal_of_flat_nil {rootDev : Nat} {p : PathT} {c : FsNode}
    (h : flatChild rootDev p c = []) : childTotal rootDev c = 0 := by
  have hs := (flatChild_eq_nil_iff rootDev p c).mp h
  cases c with
  | file nm m => simp only [FsNode.meta] at hs; simp [childTotal, hs]
  | dir nm m readable cs => simp only [FsNode.meta] at hs; simp [childTotal, hs]

theorem forestTotal_of_flat_nil {rootDev : Nat} {p : PathT} :
    ∀ {cs : List FsNode}, flatForest rootDev p cs = [] → forestTotal rootDev cs = 0
  | [], _ => rfl
  | c :: cs, h => by
    simp only [flatForest, List.append_eq_nil] at h
    simp only [forestTotal, childTotal_of_flat_nil h.1,
      forestTotal_of_flat_nil (p := p) h.2]

mutual

/-- Path shape of the emitted entries: everything below child `c` of the
directory at `p` lives at `p ++ c.name :: s`, and `depth` is the
component count of the path. -/
theorem flatChild_shape (rootDev : Nat) (p : PathT) :
    ∀ c, ∀ e ∈ flatChild rootDev p c,
      ∃ s, e.path = p ++ c.name :: s ∧ e.depth = p.length + 1 + s.length
  | .file nm m, e, he => by
    simp only [flatChild] at he
    split at he
    · simp at he
    · simp only [List.mem_singleton] at he
      subst he
      exact ⟨[], by simp [FsNode.name]⟩
  | .dir nm m readable cs, e, he => by
    simp only [flatChild] at he
    split at he
    · simp at he
    · rcases List.mem_cons.mp he with rfl | he'
      · exact ⟨[], by simp [FsNode.name]⟩
      · split at he'
        · obtain ⟨a, s', _, hp, hd⟩ := flatForest_shape rootDev (p ++ [nm]) cs e he'
          refine ⟨a :: s', ?_, ?_⟩
          · rw [hp]; simp [FsNode.name]
          · rw [hd]; simp; omega
        · simp at he'

theorem flatForest_shape (rootDev : Nat) (p : PathT) :
    ∀ cs, ∀ e ∈ flatForest rootDev p cs,
      ∃ a s, a ∈ cs.map FsNode.name ∧ e.path = p ++ a :: s ∧ e.depth = p.length + 1 + s.length
  | [], e, he => by simp [flatForest] at he
  | c :: cs, e, he => by
    simp only [flatForest] at he
    rcases List.mem_append.mp he with he' | he'
    · obtain ⟨s, hp, hd⟩ := flatChild_shape rootDev p c e he'
      exact ⟨c.name, s, by simp, hp, hd⟩
    · obtain ⟨a, s, ha, hp, hd⟩ := flatForest_shape rootDev p cs e he'
      exact ⟨a, s, by simp [ha], hp, hd⟩

end

mutual

theorem flatChild_depth_lt (rootDev : Nat) (p : PathT) :
    ∀ c, depthsOkChild (p.length + 1) c = true →
      ∀ e ∈ flatChild rootDev p c, e.depth < 4096
  | .file nm m, hd, e, he => by
    simp only [depthsOkChild, decide_eq_true_eq] at hd
    simp only [flatChild] at he
    split at he
    · simp at he
    · simp only [List.mem_singleton] at he
      subst he
      simpa using hd
  | .dir nm m readable cs, hd, e, he => by
    simp only [depthsOkChild, Bool.and_eq_true, decide_eq_true_eq] at hd
    simp only [flatChild] at he
    split at he
    · simp at he
    · rcases List.mem_cons.mp he with rfl | he'
      · simpa using hd.1
      · split at he'
        · refine flatForest_depth_lt rootDev (p ++ [nm]) cs ?_ e he'
          simpa using hd.2
        · simp at he'

theorem flatForest_depth_lt (rootDev : Nat) (p : PathT) :
    ∀ cs, depthsOkForest (p.length + 1) cs = true →
      ∀ e ∈ flatForest rootDev p cs, e.depth < 4096
  | [], _, e, he => by simp [flatForest] at he
  | c :: cs, hd, e, he => by
    simp only [depthsOkForest, Bool.and_eq_true] at hd
    simp only [flatForest] at he
    rcases List.mem_append.mp he with he' | he'
    · exact flatChild_depth_lt rootDev p c hd.1 e he'
    · exact flatForest_depth_lt rootDev p cs hd.2 e he'

end

mutual

theorem flatChild_pairwise (rootDev : Nat) (p : PathT) :
    ∀ c, wfChild c = true →
      (flatChild rootDev p c).Pairwise (fun a b => a.path < b.path)
  | .file nm m, _ => by
    simp only [flatChild]
    split <;> simp
  | .dir nm m readable cs, hw => by
    simp only [flatChild]
    split
    · simp
    · refine List.pairwise_cons.mpr ⟨?_, ?_⟩
      · intro e he
        split at he
        · obtain ⟨a, s, _, hp, _⟩ := flatForest_shape rootDev (p ++ [nm]) cs e he
          show (p ++ [nm] : PathT) < e.path
          refine path_lt_of_prefix_ne ⟨a :: s, hp.symm⟩ ?_
          intro h
          have := congrArg List.length (h.trans hp)
          simp at this
        · simp at he
      · split
        · exact flatForest_pairwise rootDev (p ++ [nm]) cs (by simpa [wfChild] using hw)
        · simp

theorem flatForest_pairwise (rootDev : Nat) (p : PathT) :
    ∀ cs, wfForest cs = true →
      (flatForest rootDev p cs).Pairwise (fun a b => a.path < b.path)
  | [], _ => by simp [flatForest]
  | c :: cs, hw => by
    simp only [wfForest, Bool.and_eq_true, List.all_eq_true, decide_eq_true_eq] at hw
    simp only [flatForest]
    refine List.pairwise_append.mpr
      ⟨flatChild_pairwise rootDev p c hw.1.1, flatForest_pairwise rootDev p cs hw.1.2, ?_⟩
    intro x hx y hy
    obtain ⟨s, hxp, _⟩ := flatChild_shape rootDev p c x hx
    obtain ⟨a, s', ha, hyp, _⟩ := flatForest_shape rootDev p cs y hy
    obtain ⟨c2, hc2, rfl⟩ := List.mem_map.mp ha
    rw [hxp, hyp]
    exact path_append_lt (hw.2 c2 hc2)

end

mutual

theorem flatChild_dir_size (rootDev : Nat) (p : PathT) :
    ∀ c, ∀ e ∈ flatChild rootDev p c, e.isDir = true → e.size = 0
  | .file nm m, e, he, hdir => by
    simp only [flatChild] at he
    split at he
    · simp at he
    · simp only [List.mem_singleton] at he
      subst he
      simp at hdir
  | .dir nm m readable cs, e, he, hdir => by
    simp only [flatChild] at he
    split at he
    · simp at he
    · rcases List.mem_cons.mp he with rfl | he'
      · rfl
      · split at he'
        · exact flatForest_dir_size rootDev (p ++ [nm]) cs e he' hdir
        · simp at he'

theorem flatForest_dir_size (rootDev : Nat) (p : PathT) :
    ∀ cs, ∀ e ∈ flatForest rootDev p cs, e.isDir = true → e.size = 0
  | [], e, he, _ => by simp [flatForest] at he
  | c :: cs, e, he, hdir => by
    simp only [flatForest] at he
    rcases List.mem_append.mp he with he' | he'
    · exact flatChild_dir_size rootDev p c e he' hdir
    · exact flatForest_dir_size rootDev p cs e he' hdir

end

/-- Field-level agreement between a pre-aggregation entry and its
post-aggregation counterpart: everything but the size coincides, and
file sizes are untouched. -/
def agrees (e ea : Info) : Prop :=
  ea.path = e.path ∧ ea.depth = e.depth ∧ ea.isDir = e.isDir ∧
    (e.isDir = false → ea.size = e.size)

mutual

theorem flatChildA_agrees (rootDev : Nat) (p : PathT) :
    ∀ c, List.Forall₂ agrees (flatChild rootDev p c) (flatChildA rootDev p c)
  | .file nm m => by
    simp only [flatChild, flatChildA]
    split
    · exact List.Forall₂.nil
    · exact List.Forall₂.cons ⟨rfl, rfl, rfl, fun _ => rfl⟩ List.Forall₂.nil
  | .dir nm m readable cs => by
    simp only [flatChild, flatChildA]
    split
    · exact List.Forall₂.nil
    · refine List.Forall₂.cons ⟨rfl, rfl, rfl, by simp⟩ ?_
      split
      · exact flatForestA_agrees rootDev (p ++ [nm]) cs
      · exact List.Forall₂.nil

theorem flatForestA_agrees (rootDev : Nat) (p : PathT) :
    ∀ cs, List.Forall₂ agrees (flatForest rootDev p cs) (flatForestA rootDev p cs)
  | [] => List.Forall₂.nil
  | c :: cs =>
    List.rel_append (flatChildA_agrees rootDev p c) (flatForestA_agrees rootDev p cs)

end

theorem agrees_map_path : ∀ {l la : List Info}, List.Forall₂ agrees l la →
    la.map Info.path = l.map Info.path
  | _, _, List.Forall₂.nil => rfl
  | _, _, List.Forall₂.cons h hs => by
    simp only [List.map_cons, h.1, agrees_map_path hs]

theorem agrees_map_depth : ∀ {l la : List Info}, List.Forall₂ agrees l la →
    la.map Info.depth = l.map Info.depth
  | _, _, List.Forall₂.nil => rfl
  | _, _, List.Forall₂.cons h hs => by
    simp only [List.map_cons, h.2.1, agrees_map_depth hs]

theorem flatForestA_eq_nil {rootDev : Nat} {p : PathT} {cs : List FsNode}
    (h : flatForest rootDev p cs = []) : flatForestA rootDev p cs = [] := by
  have hl := (flatForestA_agrees rootDev p cs).length_eq
  rw [h] at hl
  exact List.eq_nil_of_length_eq_zero hl.symm

theorem flatForest_nonempty_bound {rootDev : Nat} {q : PathT} {cs : List FsNode}
    (hne : flatForest rootDev q cs ≠ []) (hd : depthsOkForest (q.length + 1) cs = true) :
    q.length + 1 < 4096 := by
  obtain ⟨e, he⟩ := List.exists_mem_of_ne_nil _ hne
  have h1 := flatForest_depth_lt rootDev q cs hd e he
  obtain ⟨a, s, _, _, hdep⟩ := flatForest_shape rootDev q cs e he
  omega

/-! ## Correctness of the Aggregation Pass on a flattened forest

The two mutually inductive lemmas below run `accumulateGo` (the reverse
loop of `Tree::accumulate`) over the reversed flattening of one child
resp. one forest and characterise the result exactly: the emitted block
comes out as its aggregated counterpart (`flatChildA`/`flatForestA`),
the depth bucket of the block's own level has received the block's byte
total, every deeper bucket is back to zero, and `prev_depth` is the
block's own level. -/

mutual

theorem accGo_child (rootDev : Nat) (p : PathT) (c : FsNode) (sums : Nat → Nat)
    (prevDepth : Nat) (rest : List Info)
    (hprev : prevDepth ≤ p.length + 1)
    (hz : ∀ d, p.length + 2 ≤ d → sums d = 0)
    (hdep : depthsOkChild (p.length + 1) c = true) :
    accumulateGo sums prevDepth ((flatChild rootDev p c).reverse ++ rest) =
      (accumulateGo
        (if flatChild rootDev p c = [] then sums
          else Function.update sums (p.length + 1)
            (sums (p.length + 1) + childTotal rootDev c))
        (if flatChild rootDev p c = [] then prevDepth else p.length + 1)
        rest).map
        (fun out => (flatChildA rootDev p c).reverse ++ out) := by
  cases c with
  | file nm m =>
    by_cases hs : (m.isLink || rootDev != m.dev) = true
    · simp only [flatChild, flatChildA, if_pos hs, List.reverse_nil, List.nil_append, if_pos]
      cases hres : accumulateGo sums prevDepth rest <;> simp [hres]
    · have hb : p.length + 1 < 4096 := by
        simp only [depthsOkChild, decide_eq_true_eq] at hdep
        exact hdep
      have hlen : (p ++ [nm]).length = p.length + 1 := by simp
      simp only [flatChild, flatChildA, childTotal, if_neg hs, hlen,
        List.reverse_singleton, List.singleton_append, List.cons_ne_nil, if_neg,
        ite_false]
      simp only [accumulateGo]
      have h1 : ¬ (p.length + 1 < prevDepth) := by omega
      simp only [if_neg h1, if_pos hb]
      cases hres : accumulateGo
          (Function.update sums (p.length + 1) (sums (p.length + 1) + m.sz))
          (p.length + 1) rest <;> simp [hres]
  | dir nm m readable cs =>
    by_cases hs : (m.isLink || rootDev != m.dev) = true
    · simp only [flatChild, flatChildA, if_pos hs, List.reverse_nil, List.nil_append, if_pos]
      cases hres : accumulateGo sums prevDepth rest <;> simp [hres]
    · have hlen : (p ++ [nm]).length = p.length + 1 := by simp
      have hb : p.length + 1 < 4096 := by
        simp only [depthsOkChild, Bool.and_eq_true, decide_eq_true_eq] at hdep
        exact hdep.1
      have hdF : depthsOkForest ((p ++ [nm]).length + 1) cs = true := by
        simp only [depthsOkChild, Bool.and_eq_true, decide_eq_true_eq] at hdep
        rw [hlen]
        exact hdep.2
      cases readable with
      | false =>
        simp only [flatChild, flatChildA, childTotal, if_neg hs, hlen, if_neg,
          Bool.false_eq_true, ite_false, List.reverse_singleton, List.singleton_append,
          List.cons_ne_nil]
        simp only [accumulateGo]
        have h1 : ¬ (p.length + 1 < prevDepth) := by omega
        simp only [if_neg h1, if_pos hb]
        cases hres : accumulateGo
            (Function.update sums (p.length + 1) (sums (p.length + 1) + 0))
            (p.length + 1) rest <;> simp [hres]
      | true =>
        have hprev' : prevDepth ≤ (p ++ [nm]).length + 1 := by rw [hlen]; omega
        have hz' : ∀ d, (p ++ [nm]).length + 2 ≤ d → sums d = 0 := by
          intro d hd
          refine hz d ?_
          rw [hlen] at hd
          omega
        have IH := accGo_forest rootDev (p ++ [nm]) cs sums prevDepth
          (⟨p ++ [nm], (p ++ [nm]).length, 0, true⟩ :: rest) hprev' hz' hdF
        simp only [flatChild, flatChildA, childTotal, if_neg hs, ite_true,
          List.reverse_cons, List.cons_ne_nil, if_neg, ite_false]
        rw [List.append_assoc, List.singleton_append, IH]
        by_cases hinner : flatForest rootDev (p ++ [nm]) cs = []
        · have hinnerA := flatForestA_eq_nil hinner
          have hT : forestTotal rootDev cs = 0 := forestTotal_of_flat_nil hinner
          simp only [hinner, hinnerA, if_pos, List.reverse_nil, List.nil_append, hT]
          simp only [accumulateGo, hlen]
          have h1 : ¬ (p.length + 1 < prevDepth) := by omega
          simp only [if_neg h1, if_pos hb]
          cases hres : accumulateGo
              (Function.update sums (p.length + 1) (sums (p.length + 1) + 0))
              (p.length + 1) rest <;> simp [hres]
        · have hk2 : p.length + 2 < 4096 := by
            have := flatForest_nonempty_bound hinner hdF
            rw [hlen] at this
            omega
          simp only [if_neg hinner, hlen]
          simp only [accumulateGo]
          have h1 : p.length + 1 < p.length + 2 := by omega
          simp only [if_pos h1, if_pos hk2, if_pos hb]
          rw [Function.update_same]
          have hz2 : sums (p.length + 2) = 0 := hz _ (by omega)
          rw [Function.update_idem, hz2, Nat.zero_add]
          have hupd : Function.update sums (p.length + 2) 0 = sums := by
            rw [← hz2]
            exact Function.update_eq_self _ _
          rw [hupd]
          cases hres : accumulateGo
              (Function.update sums (p.length + 1)
                (sums (p.length + 1) + forestTotal rootDev cs))
              (p.length + 1) rest <;> simp [hres]

theorem accGo_forest (rootDev : Nat) (p : PathT) (cs : List FsNode) (sums : Nat → Nat)
    (prevDepth : Nat) (rest : List Info)
    (hprev : prevDepth ≤ p.length + 1)
    (hz : ∀ d, p.length + 2 ≤ d → sums d = 0)
    (hdep : depthsOkForest (p.length + 1) cs = true) :
    accumulateGo sums prevDepth ((flatForest rootDev p cs).reverse ++ rest) =
      (accumulateGo
        (if flatForest rootDev p cs = [] then sums
          else Function.update sums (p.length + 1)
            (sums (p.length + 1) + forestTotal rootDev cs))
        (if flatForest rootDev p cs = [] then prevDepth else p.length + 1)
        rest).map
        (fun out => (flatForestA rootDev p cs).reverse ++ out) := by
  cases cs with
  | nil =>
    simp only [flatForest, flatForestA, List.reverse_nil, List.nil_append, if_pos]
    cases hres : accumulateGo sums prevDepth rest <;> simp [hres]
  | cons c cs =>
    have hdc : depthsOkChild (p.length + 1) c = true ∧
        depthsOkForest (p.length + 1) cs = true := by
      simpa [depthsOkForest, Bool.and_eq_true] using hdep
    simp only [flatForest, flatForestA, forestTotal, List.reverse_append, List.append_assoc]
    rw [accGo_forest rootDev p cs sums prevDepth
      ((flatChild rootDev p c).reverse ++ rest) hprev hz hdc.2]
    by_cases hecs : flatForest rootDev p cs = []
    · have hecsA := flatForestA_eq_nil hecs
      have hTcs : forestTotal rootDev cs = 0 := forestTotal_of_flat_nil hecs
      rw [if_pos hecs, if_pos hecs,
        accGo_child rootDev p c sums prevDepth rest hprev hz hdc.1]
      by_cases hec : flatChild rootDev p c = []
      · simp only [hec, hecs, hecsA, if_pos, List.append_nil, List.reverse_nil,
          List.nil_append, hTcs]
        cases hres : accumulateGo sums prevDepth rest <;> simp [hres]
      · have hne : ¬ (flatChild rootDev p c ++ flatForest rootDev p cs = []) := by
          simp [List.append_eq_nil, hec]
        simp only [if_neg hec, if_neg hne, hecs, hecsA, List.append_nil, hTcs,
          Nat.add_zero]
        cases hres : accumulateGo
            (Function.update sums (p.length + 1)
              (sums (p.length + 1) + childTotal rootDev c))
            (p.length + 1) rest <;> simp [hres]
    · have hne : ¬ (flatChild rootDev p c ++ flatForest rootDev p cs = []) := by
        simp [List.append_eq_nil, hecs]
      have hz1 : ∀ d, p.length + 2 ≤ d →
          Function.update sums (p.length + 1)
            (sums (p.length + 1) + forestTotal rootDev cs) d = 0 := by
        intro d hd
        rw [Function.update_noteq (by omega)]
        exact hz d hd
      rw [if_neg hecs, if_neg hecs,
        accGo_child rootDev p c
          (Function.update sums (p.length + 1) (sums (p.length + 1) + forestTotal rootDev cs))
          (p.length + 1) rest (le_refl _) hz1 hdc.1]
      simp only [if_neg hne]
      by_cases hec : flatChild rootDev p c = []
      · have hecA : flatChildA rootDev p c = [] := by
          have hl := (flatChildA_agrees rootDev p c).length_eq
          rw [hec] at hl
          exact List.eq_nil_of_length_eq_zero hl.symm
        have hTc : childTotal rootDev c = 0 := childTotal_of_flat_nil hec
        simp only [hec, hecA, if_pos, List.reverse_nil, List.nil_append, hTc, Nat.add_zero]
        cases hres : accumulateGo
            (Function.update sums (p.length + 1)
              (sums (p.length + 1) + forestTotal rootDev cs))
            (p.length + 1) rest <;> simp [hres]
      · simp only [if_neg hec, Function.update_idem, Function.update_same]
        have harith : sums (p.length + 1) + forestTotal rootDev cs + childTotal rootDev c =
            sums (p.length + 1) + (childTotal rootDev c + forestTotal rootDev cs) := by
          omega
        rw [harith]
        cases hres : accumulateGo
            (Function.update sums (p.length + 1)
              (sums (p.length + 1) + (childTotal rootDev c + forestTotal rootDev cs)))
            (p.length + 1) rest <;> simp [hres]

end

/-- `scan` on a healthy, readable directory root: the synthetic root
entry followed by the flattened forest. -/
theorem scan_dir_eq (rootPath : PathT) (nm : Comp) (m : FMeta) (cs : List FsNode)
    (hst : m.statOk = true) (hok : okForest m.dev cs = true) :
    scan rootPath (.dir nm m true cs) =
      some (⟨rootPath, rootPath.length, m.sz, true⟩ :: flatForest m.dev rootPath cs) := by
  simp [scan, hst, scanForest_eq, hok]

/-- The sequential scan of a well-formed tree is already in ascending
path order (strictly: paths are pairwise distinct). -/
theorem scanList_pairwise (rootDev : Nat) (rootPath : PathT) (sz0 : Nat) (d0 : Nat)
    (cs : List FsNode) (hwf : wfForest cs = true) :
    ((⟨rootPath, d0, sz0, true⟩ : Info) :: flatForest rootDev rootPath cs).Pairwise
      (fun a b => a.path < b.path) := by
  refine List.pairwise_cons.mpr ⟨?_, flatForest_pairwise rootDev rootPath cs hwf⟩
  intro e he
  obtain ⟨a, s, _, hp, _⟩ := flatForest_shape rootDev rootPath cs e he
  show rootPath < e.path
  refine path_lt_of_prefix_ne ⟨a :: s, hp.symm⟩ ?_
  intro h
  have := congrArg List.length (h.trans hp)
  simp at this

/-- A strictly path-sorted list is untouched by the sort step. -/
theorem sortByPath_eq_self {l : List Info}
    (h : l.Pairwise (fun a b => a.path < b.path)) : sortByPath l = l :=
  List.Sorted.insertionSort_eq (h.imp fun hab => le_of_lt hab)

/-- `Tree::accumulate` on a sorted scan list: the root absorbs the whole
tree's byte total, and each block comes out aggregated. -/
theorem accumulate_scanList (rootDev : Nat) (rootPath : PathT) (sz0 : Nat)
    (cs : List FsNode) (hk : rootPath.length < 4096)
    (hdep : depthsOkForest (rootPath.length + 1) cs = true) :
    Tree.accumulate
        (⟨rootPath, rootPath.length, sz0, true⟩ :: flatForest rootDev rootPath cs) =
      some (⟨rootPath, rootPath.length, sz0 + forestTotal rootDev cs, true⟩ ::
        flatForestA rootDev rootPath cs) := by
  unfold Tree.accumulate
  rw [List.reverse_cons]
  rw [accGo_forest rootDev rootPath cs (fun _ => 0) 0
    [⟨rootPath, rootPath.length, sz0, true⟩] (by omega) (fun _ _ => rfl) hdep]
  by_cases hfe : flatForest rootDev rootPath cs = []
  · have hfeA := flatForestA_eq_nil hfe
    have hT : forestTotal rootDev cs = 0 := forestTotal_of_flat_nil hfe
    rw [if_pos hfe, if_pos hfe]
    simp only [accumulateGo]
    have h1 : ¬ (rootPath.length < 0) := by omega
    simp only [if_neg h1, if_pos hk, hfeA, hT]
    simp
  · have hk1 : rootPath.length + 1 < 4096 := flatForest_nonempty_bound hfe hdep
    rw [if_neg hfe, if_neg hfe]
    simp only [accumulateGo]
    have h1 : rootPath.length < rootPath.length + 1 := by omega
    simp only [if_pos h1, if_pos hk1, if_pos hk, Function.update_same]
    simp

/-! ## Conservation: every directory's aggregated size is its own
pre-aggregation size plus its immediate children's aggregated sizes -/

/-- `q2` is the path of an immediate child of the entry at `q1`. -/
def isChildPath (q1 q2 : PathT) : Bool :=
  q1.isPrefixOf q2 && (q2.length == q1.length + 1)

def sumSizes (l : List Info) : Nat := (l.map Info.size).sum

theorem sumSizes_append (l1 l2 : List Info) :
    sumSizes (l1 ++ l2) = sumSizes l1 + sumSizes l2 := by
  simp [sumSizes]

theorem forall2_mem_right {R : Info → Info → Prop} :
    ∀ {l la : List Info}, List.Forall₂ R l la → ∀ ea ∈ la, ∃ e ∈ l, R e ea
  | _, _, List.Forall₂.nil, ea, hea => by simp at hea
  | _, _, List.Forall₂.cons h hs, ea, hea => by
    rcases List.mem_cons.mp hea with rfl | hea'
    · exact ⟨_, List.mem_cons_self _ _, h⟩
    · obtain ⟨e, he, hr⟩ := forall2_mem_right hs ea hea'
      exact ⟨e, List.mem_cons_of_mem _ he, hr⟩

theorem flatForestA_shape (rootDev : Nat) (p : PathT) (cs : List FsNode) :
    ∀ ea ∈ flatForestA rootDev p cs,
      ∃ a s, a ∈ cs.map FsNode.name ∧ ea.path = p ++ a :: s ∧
        ea.depth = p.length + 1 + s.length := by
  intro ea hea
  obtain ⟨e, he, hr⟩ := forall2_mem_right (flatForestA_agrees rootDev p cs) ea hea
  obtain ⟨a, s, ha, hp, hd⟩ := flatForest_shape rootDev p cs e he
  exact ⟨a, s, ha, hr.1.trans hp, hr.2.1.trans hd⟩

theorem flatChildA_shape (rootDev : Nat) (p : PathT) (c : FsNode) :
    ∀ ea ∈ flatChildA rootDev p c,
      ∃ s, ea.path = p ++ c.name :: s ∧ ea.depth = p.length + 1 + s.length := by
  intro ea hea
  obtain ⟨e, he, hr⟩ := forall2_mem_right (flatChildA_agrees rootDev p c) ea hea
  obtain ⟨s, hp, hd⟩ := flatChild_shape rootDev p c e he
  exact ⟨s, hr.1.trans hp, hr.2.1.trans hd⟩

/-- The entries of the aggregated block of child `c` that are immediate
children of the directory at `q`: exactly the child's own entry (when it
is emitted at all). -/
def topChildA (rootDev : Nat) (q : PathT) : FsNode → List Info
  | .file nm m =>
    if m.isLink || rootDev != m.dev then []
    else [⟨q ++ [nm], (q ++ [nm]).length, m.sz, false⟩]
  | .dir nm m readable cs =>
    if m.isLink || rootDev != m.dev then []
    else [⟨q ++ [nm], (q ++ [nm]).length, if readable then forestTotal rootDev cs else 0, true⟩]

def topForestA (rootDev : Nat) (q : PathT) : List FsNode → List Info
  | [] => []
  | c :: cs => topChildA rootDev q c ++ topForestA rootDev q cs

theorem isChildPath_own_extension (q : PathT) (nm : Comp) :
    isChildPath q (q ++ [nm]) = true := by
  simp [isChildPath, List.isPrefixOf_iff_prefix]

theorem isChildPath_false_of_long {q r : PathT} (h : q.length + 2 ≤ r.length) :
    isChildPath q r = false := by
  have hb : (r.length == q.length + 1) = false := by
    simp only [beq_eq_false_iff_ne, ne_eq]
    omega
  simp [isChildPath, hb]

theorem isChildPath_false_of_short {q r : PathT} (h : r.length ≤ q.length) :
    isChildPath q r = false := by
  have hb : (r.length == q.length + 1) = false := by
    simp only [beq_eq_false_iff_ne, ne_eq]
    omega
  simp [isChildPath, hb]

theorem filter_child_flatChildA (rootDev : Nat) (q : PathT) (c : FsNode) :
    (flatChildA rootDev q c).filter (fun x => isChildPath q x.path) =
      topChildA rootDev q c := by
  cases c with
  | file nm m =>
    simp only [flatChildA, topChildA]
    split
    · rfl
    · rw [List.filter_cons_of_pos (by simpa using isChildPath_own_extension q nm),
        List.filter_nil]
  | dir nm m readable cs =>
    simp only [flatChildA, topChildA]
    split
    · rfl
    · rw [List.filter_cons_of_pos (by simpa using isChildPath_own_extension q nm)]
      have hin : (if readable then flatForestA rootDev (q ++ [nm]) cs else []).filter
          (fun x => isChildPath q x.path) = [] := by
        rw [List.filter_eq_nil_iff]
        intro ea hea
        split at hea
        · obtain ⟨a, s, _, hp, _⟩ := flatForestA_shape rootDev (q ++ [nm]) cs ea hea
          have hlen : q.length + 2 ≤ ea.path.length := by
            rw [hp]
            simp
          simp [isChildPath_false_of_long hlen]
        · simp at hea
      rw [hin]

theorem filter_child_flatForestA (rootDev : Nat) (q : PathT) :
    ∀ cs, (flatForestA rootDev q cs).filter (fun x => isChildPath q x.path) =
      topForestA rootDev q cs
  | [] => rfl
  | c :: cs => by
    simp only [flatForestA, topForestA, List.filter_append]
    rw [filter_child_flatChildA, filter_child_flatForestA rootDev q cs]

theorem sumSizes_topChildA (rootDev : Nat) (q : PathT) (c : FsNode) :
    sumSizes (topChildA rootDev q c) = childTotal rootDev c := by
  cases c with
  | file nm m =>
    simp only [topChildA, childTotal]
    split <;> simp [sumSizes]
  | dir nm m readable cs =>
    simp only [topChildA, childTotal]
    split <;> simp [sumSizes]

theorem sumSizes_topForestA (rootDev : Nat) (q : PathT) :
    ∀ cs, sumSizes (topForestA rootDev q cs) = forestTotal rootDev cs
  | [] => rfl
  | c :: cs => by
    simp only [topForestA, forestTotal, sumSizes_append,
      sumSizes_topForestA rootDev q cs, sumSizes_topChildA]

mutual

/-- Conservation inside one aggregated block: every directory entry's
size is the sum of the sizes of its immediate-child entries in that
block. -/
theorem consChild (rootDev : Nat) (p : PathT) :
    ∀ c, wfChild c = true → ∀ ea ∈ flatChildA rootDev p c, ea.isDir = true →
      ea.size =
        sumSizes ((flatChildA rootDev p c).filter (fun x => isChildPath ea.path x.path))
  | .file nm m, hwf, ea, hea, hdir => by
    by_cases hs : (m.isLink || rootDev != m.dev) = true
    · simp [flatChildA, hs] at hea
    · simp only [flatChildA, if_neg hs, List.mem_singleton] at hea
      subst hea
      simp at hdir
  | .dir nm m readable cs, hwf, ea, hea, hdir => by
    by_cases hs : (m.isLink || rootDev != m.dev) = true
    · simp [flatChildA, hs] at hea
    · simp only [flatChildA, if_neg hs] at hea ⊢
      rcases List.mem_cons.mp hea with rfl | hea'
      · rw [List.filter_cons_of_neg
          (by simp [isChildPath_false_of_short (le_refl (p ++ [nm] : PathT).length)])]
        cases readable with
        | false => simp [sumSizes]
        | true =>
          simp only [if_true]
          rw [filter_child_flatForestA, sumSizes_topForestA]
      · by_cases hr : readable = true
        · rw [if_pos hr] at hea'
          obtain ⟨a, s, _, hp, _⟩ := flatForestA_shape rootDev (p ++ [nm]) cs ea hea'
          have hshort : ((p ++ [nm] : PathT)).length ≤ ea.path.length := by
            rw [hp]
            simp
          rw [List.filter_cons_of_neg (by simp [isChildPath_false_of_short hshort])]
          rw [if_pos hr]
          exact consForest rootDev (p ++ [nm]) cs (by simpa [wfChild] using hwf) ea hea' hdir
        · rw [if_neg hr] at hea'
          simp at hea'

/-- Conservation inside one aggregated forest: sibling blocks never
contribute to each other's directories (their paths diverge at this
level's component), so the sum concentrates in the directory's own
block. -/
theorem consForest (rootDev : Nat) (p : PathT) :
    ∀ cs, wfForest cs = true → ∀ ea ∈ flatForestA rootDev p cs, ea.isDir = true →
      ea.size =
        sumSizes ((flatForestA rootDev p cs).filter (fun x => isChildPath ea.path x.path))
  | [], _, ea, hea, _ => by simp [flatForestA] at hea
  | c :: cs, hwf, ea, hea, hdir => by
    have hw : (wfChild c = true ∧ wfForest cs = true) ∧ ∀ c2 ∈ cs, c.name < c2.name := by
      simpa [wfForest, Bool.and_eq_true, List.all_eq_true, decide_eq_true_eq] using hwf
    simp only [flatForestA, List.filter_append, sumSizes_append] at hea ⊢
    rcases List.mem_append.mp hea with hea' | hea'
    · have hnil : (flatForestA rootDev p cs).filter
          (fun x => isChildPath ea.path x.path) = [] := by
        rw [List.filter_eq_nil_iff]
        intro y hy hcp
        simp only [isChildPath, Bool.and_eq_true, beq_iff_eq] at hcp
        obtain ⟨s, hps, _⟩ := flatChildA_shape rootDev p c ea hea'
        obtain ⟨a, s', ha, hyp, _⟩ := flatForestA_shape rootDev p cs y hy
        have hpre : ea.path <+: y.path := List.isPrefixOf_iff_prefix.mp hcp.1
        have h1 : (p ++ [c.name] : PathT) <+: y.path := by
          refine List.IsPrefix.trans ?_ hpre
          rw [hps]
          exact ⟨s, by simp⟩
        have h2 : (p ++ [a] : PathT) <+: y.path := by
          rw [hyp]
          exact ⟨s', by simp⟩
        have heq : (p ++ [c.name] : PathT) = p ++ [a] :=
          path_prefix_eq_of_length h1 h2 (by simp)
        have hname : c.name = a := by
          have := List.append_cancel_left heq
          simpa using this
        obtain ⟨c2, hc2, rfl⟩ := List.mem_map.mp ha
        have hlt := hw.2 c2 hc2
        rw [hname] at hlt
        exact lt_irrefl _ hlt
      rw [hnil]
      simp only [sumSizes, List.map_nil, List.sum_nil, Nat.add_zero]
      exact consChild rootDev p c hw.1.1 ea hea' hdir
    · have hnil : (flatChildA rootDev p c).filter
          (fun x => isChildPath ea.path x.path) = [] := by
        rw [List.filter_eq_nil_iff]
        intro y hy hcp
        simp only [isChildPath, Bool.and_eq_true, beq_iff_eq] at hcp
        obtain ⟨s, hys, _⟩ := flatChildA_shape rootDev p c y hy
        obtain ⟨a, s', ha, hap, _⟩ := flatForestA_shape rootDev p cs ea hea'
        have hpre : ea.path <+: y.path := List.isPrefixOf_iff_prefix.mp hcp.1
        have h1 : (p ++ [c.name] : PathT) <+: y.path := by
          rw [hys]
          exact ⟨s, by simp⟩
        have h2 : (p ++ [a] : PathT) <+: y.path := by
          refine List.IsPrefix.trans ?_ hpre
          rw [hap]
          exact ⟨s', by simp⟩
        have heq : (p ++ [c.name] : PathT) = p ++ [a] :=
          path_prefix_eq_of_length h1 h2 (by simp)
        have hname : c.name = a := by
          have := List.append_cancel_left heq
          simpa using this
        obtain ⟨c2, hc2, rfl⟩ := List.mem_map.mp ha
        have hlt := hw.2 c2 hc2
        rw [hname] at hlt
        exact lt_irrefl _ hlt
      rw [hnil]
      simp only [sumSizes, List.map_nil, List.sum_nil, Nat.zero_add]
      exact consForest rootDev p cs hw.1.2 ea hea' hdir

end

/-- Inverting a successful `scan` of a readable directory root. -/
theorem scan_dir_inv {rootPath : PathT} {nm : Comp} {m : FMeta} {cs : List FsNode}
    {pre : List Info} (hscan : scan rootPath (.dir nm m true cs) = some pre) :
    m.statOk = true ∧ okForest m.dev cs = true ∧
      pre = ⟨rootPath, rootPath.length, m.sz, true⟩ :: flatForest m.dev rootPath cs := by
  simp only [scan, scanForest_eq] at hscan
  cases hst : m.statOk <;> rw [hst] at hscan
  · simp at hscan
  · cases hok : okForest m.dev cs <;> rw [hok] at hscan
    · simp at hscan
    · simp only [Bool.not_true, Bool.false_eq_true, if_false, if_true,
        Option.some.injEq] at hscan
      exact ⟨rfl, rfl, hscan.symm⟩

/-- The preprocessed scan of a well-formed, in-depth-bounds tree:
already sorted, so the sort is the identity, and the Aggregation Pass
succeeds with the aggregated flattening. -/
theorem preprocess_scan {rootPath : PathT} {nm : Comp} {m : FMeta} {cs : List FsNode}
    {pre : List Info}
    (hwf : wfForest cs = true)
    (hdep : depthsOkForest (rootPath.length + 1) cs = true)
    (hk : rootPath.length < 4096)
    (hscan : scan rootPath (.dir nm m true cs) = some pre) :
    Tree.preprocess pre =
      some (⟨rootPath, rootPath.length, m.sz + forestTotal m.dev cs, true⟩ ::
        flatForestA m.dev rootPath cs) := by
  obtain ⟨hst, hok, rfl⟩ := scan_dir_inv hscan
  unfold Tree.preprocess
  rw [sortByPath_eq_self (scanList_pairwise m.dev rootPath m.sz rootPath.length cs hwf)]
  exact accumulate_scanList m.dev rootPath m.sz cs hk hdep

/-- C1 (amended): after sort and aggregation over a successful scan of a
well-formed directory tree, every directory entry's size equals its own
pre-aggregation (scanned) size plus the sum of the post-aggregation
sizes of its immediate children; file sizes are unchanged; and the root
entry's aggregated size equals the root's own scanned size plus the sum
of the raw sizes of every reachable, same-device, non-symlinked file in
the subtree (`forestTotal`). -/
theorem C1_conservation (rootPath : PathT) (nm : Comp) (m : FMeta)
    (cs : List FsNode) (pre out : List Info)
    (hwf : wfForest cs = true)
    (hdep : depthsOkForest (rootPath.length + 1) cs = true)
    (hk : rootPath.length < 4096)
    (hscan : scan rootPath (.dir nm m true cs) = some pre)
    (hpp : Tree.preprocess pre = some out) :
    out.length = pre.length ∧
    (∀ i (hi : i < out.length) (hip : i < pre.length),
        ((out.get ⟨i, hi⟩).isDir = true →
          (out.get ⟨i, hi⟩).size = (pre.get ⟨i, hip⟩).size +
            sumSizes (out.filter (fun x => isChildPath (out.get ⟨i, hi⟩).path x.path))) ∧
        ((out.get ⟨i, hi⟩).isDir = false →
          (out.get ⟨i, hi⟩).size = (pre.get ⟨i, hip⟩).size)) ∧
    (∃ r rest, out = r :: rest ∧ r.size = m.sz + forestTotal m.dev cs) := by
  have hpp2 := preprocess_scan hwf hdep hk hscan
  rw [hpp] at hpp2
  obtain ⟨hst, hok, hpre⟩ := scan_dir_inv hscan
  have hout : out = ⟨rootPath, rootPath.length, m.sz + forestTotal m.dev cs, true⟩ ::
      flatForestA m.dev rootPath cs := by
    injection hpp2
  subst hout
  subst hpre
  have hlen := (flatForestA_agrees m.dev rootPath cs).length_eq
  refine ⟨by simpa using hlen.symm, ?_, ?_⟩
  · intro i hi hip
    cases i with
    | zero =>
      constructor
      · intro _
        simp only [List.get]
        rw [List.filter_cons_of_neg
          (by simp [isChildPath_false_of_short (le_refl rootPath.length)])]
        rw [filter_child_flatForestA, sumSizes_topForestA]
      · intro h
        simp [List.get] at h
    | succ j =>
      simp only [List.length_cons, Nat.succ_lt_succ_iff] at hi hip
      simp only [List.get_cons_succ]
      have hag := (flatForestA_agrees m.dev rootPath cs).get hip hi
      set e := (flatForest m.dev rootPath cs).get ⟨j, hip⟩ with he
      set ea := (flatForestA m.dev rootPath cs).get ⟨j, hi⟩ with hea
      have heam : ea ∈ flatForestA m.dev rootPath cs := by
        rw [hea]
        exact List.get_mem _ _ _
      have hem : e ∈ flatForest m.dev rootPath cs := by
        rw [he]
        exact List.get_mem _ _ _
      constructor
      · intro hdir
        have hedir : e.isDir = true := by rw [← hag.2.2.1, hdir]
        have hez : e.size = 0 := flatForest_dir_size m.dev rootPath cs e hem hedir
        rw [hez, Nat.zero_add]
        obtain ⟨a, s, _, hp, _⟩ := flatForestA_shape m.dev rootPath cs ea heam
        have hroot : isChildPath ea.path rootPath = false := by
          refine isChildPath_false_of_short ?_
          rw [hp]
          simp
        rw [List.filter_cons_of_neg (by simp [hroot])]
        exact consForest m.dev rootPath cs hwf ea heam hdir
      · intro hfile
        have hefile : e.isDir = false := by rw [← hag.2.2.1, hfile]
        exact hag.2.2.2 hefile
  · exact ⟨_, _, rfl, rfl⟩

/-! ## Correctness of the two binary searches of `Tree::get` -/

theorem path_le_of_isPrefix {p q : PathT} (h : p <+: q) : p ≤ q := by
  by_cases he : p = q
  · exact le_of_eq he
  · exact le_of_lt (path_lt_of_prefix_ne h he)

/-- On a list whose positions satisfying `pred` are downward closed, the
positions satisfying `pred` are exactly those below the length of the
`takeWhile` prefix. -/
theorem takeWhile_partition :
    ∀ (l : List Info) (pred : Info → Bool),
      (∀ j1 j2 (h1 : j1 < l.length) (h2 : j2 < l.length), j1 ≤ j2 →
        pred (l.get ⟨j2, h2⟩) = true → pred (l.get ⟨j1, h1⟩) = true) →
      ∀ j (hj : j < l.length),
        (pred (l.get ⟨j, hj⟩) = true ↔ j < (l.takeWhile pred).length)
  | [], _, _, j, hj => by simp at hj
  | a :: l, pred, hdc, j, hj => by
    cases hpa : pred a with
    | false =>
      simp only [List.takeWhile_cons, hpa, Bool.false_eq_true, if_false, List.length_nil]
      constructor
      · intro hpj
        have := hdc 0 j (by simp) hj (by omega) hpj
        simp only [List.get] at this
        rw [this] at hpa
        exact absurd hpa (by simp)
      · omega
    | true =>
      simp only [List.takeWhile_cons, hpa, if_true, List.length_cons]
      cases j with
      | zero => simpa using hpa
      | succ j' =>
        simp only [List.length_cons, Nat.succ_lt_succ_iff] at hj
        have hdc' : ∀ j1 j2 (h1 : j1 < l.length) (h2 : j2 < l.length), j1 ≤ j2 →
            pred (l.get ⟨j2, h2⟩) = true → pred (l.get ⟨j1, h1⟩) = true := by
          intro j1 j2 h1 h2 hle hp
          have := hdc (j1 + 1) (j2 + 1) (by simpa using h1) (by simpa using h2)
            (by omega) (by simpa using hp)
          simpa using this
        have := takeWhile_partition l pred hdc' j' hj
        simpa [Nat.succ_lt_succ_iff] using this

theorem bsearchGo_finds (data : List Info) (p : PathT)
    (hsort : data.Pairwise (fun a b => a.path < b.path)) :
    ∀ fuel lo hi i (hi2 : i < data.length), lo ≤ i → i < hi → hi ≤ data.length →
      hi - lo ≤ fuel → (data.get ⟨i, hi2⟩).path = p →
      bsearchGo data p fuel lo hi = some i := by
  intro fuel
  induction fuel with
  | zero => intro lo hi i hi2 h1 h2 h3 h4 h5; omega
  | succ fuel ih =>
    intro lo hi i hi2 h1 h2 h3 h4 h5
    have hlh : lo < hi := by omega
    have hmid : (lo + hi) / 2 < data.length := by omega
    simp only [bsearchGo, if_pos hlh]
    rw [List.getD_eq_get data default hmid]
    have hpw := List.pairwise_iff_get.mp hsort
    by_cases hlt : (data.get ⟨(lo + hi) / 2, hmid⟩).path < p
    · have hgt : (lo + hi) / 2 < i := by
        by_contra hcon
        push_neg at hcon
        rcases Nat.lt_or_ge i ((lo + hi) / 2) with hlt2 | hge
        · have := hpw ⟨i, hi2⟩ ⟨(lo + hi) / 2, hmid⟩ hlt2
          rw [h5] at this
          exact absurd hlt (lt_asymm this)
        · have hieq : i = (lo + hi) / 2 := by omega
          subst hieq
          rw [h5] at hlt
          exact absurd hlt (lt_irrefl _)
      simp only [pcmp, if_pos hlt]
      exact ih ((lo + hi) / 2 + 1) hi i hi2 (by omega) h2 h3 (by omega) h5
    · by_cases heq : (data.get ⟨(lo + hi) / 2, hmid⟩).path = p
      · simp only [pcmp, if_neg hlt, if_pos heq]
        have : (lo + hi) / 2 = i := by
          by_contra hcon
          rcases Nat.lt_or_ge ((lo + hi) / 2) i with hlt2 | hge
          · have := hpw ⟨(lo + hi) / 2, hmid⟩ ⟨i, hi2⟩ hlt2
            rw [h5, heq] at this
            exact absurd this (lt_irrefl _)
          · have hlt2 : i < (lo + hi) / 2 := by omega
            have := hpw ⟨i, hi2⟩ ⟨(lo + hi) / 2, hmid⟩ hlt2
            rw [h5, heq] at this
            exact absurd this (lt_irrefl _)
        rw [this]
      · simp only [pcmp, if_neg hlt, if_neg heq]
        have hgt : i < (lo + hi) / 2 := by
          by_contra hcon
          push_neg at hcon
          rcases Nat.lt_or_ge i ((lo + hi) / 2) with hlt2 | hge
          · omega
          · rcases Nat.eq_or_lt_of_le hcon with heq2 | hlt3
            · exact heq (heq2 ▸ h5)
            · have := hpw ⟨(lo + hi) / 2, hmid⟩ ⟨i, hi2⟩ hlt3
              rw [h5] at this
              exact absurd this hlt
        exact ih lo ((lo + hi) / 2) i hi2 h1 hgt (by omega) (by omega) h5

theorem ppointGo_finds (l : List Info) (pred : Info → Bool) (N : Nat)
    (hN : N ≤ l.length)
    (hpart : ∀ j (hj : j < l.length), pred (l.get ⟨j, hj⟩) = true ↔ j < N) :
    ∀ fuel lo hi, lo ≤ N → N ≤ hi → hi ≤ l.length → hi - lo ≤ fuel →
      ppointGo l pred fuel lo hi = N := by
  intro fuel
  induction fuel with
  | zero =>
    intro lo hi h1 h2 h3 h4
    simp only [ppointGo]
    omega
  | succ fuel ih =>
    intro lo hi h1 h2 h3 h4
    by_cases hlh : lo < hi
    · have hmid : (lo + hi) / 2 < l.length := by omega
      simp only [ppointGo, if_pos hlh]
      rw [List.getD_eq_get l default hmid]
      cases hp : pred (l.get ⟨(lo + hi) / 2, hmid⟩) with
      | true =>
        have := (hpart _ hmid).mp hp
        exact ih ((lo + hi) / 2 + 1) hi (by omega) h2 h3 (by omega)
      | false =>
        have : ¬ ((lo + hi) / 2 < N) := by
          intro hcon
          rw [(hpart _ hmid).mpr hcon] at hp
          exact absurd hp (by simp)
        exact ih lo ((lo + hi) / 2) h1 (by omega) (by omega) (by omega)
    · simp only [ppointGo, if_neg hlh]
      omega

/-- `Tree::get` on a strictly path-sorted, depth-consistent index that
contains `p`: it returns exactly the immediate-child entries of `p`,
sorted descending by size with the stable model sort. -/
theorem get_children (data : List Info) (p : PathT)
    (hsort : data.Pairwise (fun a b => a.path < b.path))
    (hdc : ∀ e ∈ data, e.depth = e.path.length)
    (i : Nat) (hi : i < data.length) (hpi : (data.get ⟨i, hi⟩).path = p) :
    Tree.get data p =
      some (List.insertionSort sizeGe (data.filter (fun x => isChildPath p x.path))) := by
  have hpw := List.pairwise_iff_get.mp hsort
  have hbs := bsearchGo_finds data p hsort data.length 0 data.length i hi
    (by omega) hi (le_refl _) (by omega) hpi
  have hdcl : ∀ j1 j2 (h1 : j1 < (data.drop i).length) (h2 : j2 < (data.drop i).length),
      j1 ≤ j2 → (p.isPrefixOf ((data.drop i).get ⟨j2, h2⟩).path) = true →
      (p.isPrefixOf ((data.drop i).get ⟨j1, h1⟩).path) = true := by
    intro j1 j2 h1 h2 hle hp2
    have hd1 : i + j1 < data.length := by
      simp only [List.length_drop] at h1
      omega
    have hd2 : i + j2 < data.length := by
      simp only [List.length_drop] at h2
      omega
    rw [← List.get_drop data hd1]
    rw [← List.get_drop data hd2] at hp2
    rw [List.isPrefixOf_iff_prefix] at hp2 ⊢
    have hle1 : p ≤ (data.get ⟨i + j1, hd1⟩).path := by
      rcases Nat.eq_or_lt_of_le (Nat.le_add_right i j1) with heq | hlt

      · have hfe : (⟨i, hi⟩ : Fin data.length) = ⟨i + j1, hd1⟩ := by
          ext
          exact heq
        rw [← hpi, hfe]
      · exact le_of_lt (hpi ▸ hpw ⟨i, hi⟩ ⟨i + j1, hd1⟩ hlt)
    have hle2 : (data.get ⟨i + j1, hd1⟩).path ≤ (data.get ⟨i + j2, hd2⟩).path := by
      rcases Nat.eq_or_lt_of_le (Nat.add_le_add_left hle i) with heq | hlt
      · have hfe : (⟨i + j1, hd1⟩ : Fin data.length) = ⟨i + j2, hd2⟩ := by
          ext
          exact heq
        rw [hfe]
      · exact le_of_lt (hpw ⟨i + j1, hd1⟩ ⟨i + j2, hd2⟩ hlt)
    exact path_prefix_of_between hle1 hle2 hp2
  have hN : ((data.drop i).takeWhile (fun x => p.isPrefixOf x.path)).length ≤
      (data.drop i).length :=
    (List.takeWhile_prefix _).length_le
  have hpart := takeWhile_partition (data.drop i) (fun x => p.isPrefixOf x.path) hdcl
  have hpp := ppointGo_finds (data.drop i) (fun x => p.isPrefixOf x.path)
    ((data.drop i).takeWhile (fun x => p.isPrefixOf x.path)).length hN hpart
    (data.drop i).length 0 (data.drop i).length (by omega) hN (le_refl _) (by omega)
  simp only [Tree.get, hbs, hpp]
  refine congrArg (fun l => some (List.insertionSort sizeGe l)) ?_
  have hsplit1 : data = data.take i ++ data.drop i := (List.take_append_drop i data).symm
  have hleft : (data.take i).filter (fun x => isChildPath p x.path) = [] := by
    rw [List.filter_eq_nil_iff]
    intro x hx hcp
    obtain ⟨⟨j, hj⟩, hxe⟩ := List.mem_iff_get.mp hx
    have hj2 : j < i := by
      simp only [List.length_take] at hj
      omega
    have hjlen : j < data.length := by omega
    have hxg : x = data.get ⟨j, hjlen⟩ := by
      rw [← hxe, List.get_take']
    have hlt : x.path < p := by
      rw [hxg]
      exact hpi ▸ hpw ⟨j, hjlen⟩ ⟨i, hi⟩ hj2
    simp only [isChildPath, Bool.and_eq_true] at hcp
    have hpre := List.isPrefixOf_iff_prefix.mp hcp.1
    exact absurd (lt_of_le_of_lt (path_le_of_isPrefix hpre) hlt) (lt_irrefl _)
  have hright : ((data.drop i).drop
        ((data.drop i).takeWhile (fun x => p.isPrefixOf x.path)).length).filter
      (fun x => isChildPath p x.path) = [] := by
    rw [List.filter_eq_nil_iff]
    intro x hx hcp
    obtain ⟨⟨j, hj⟩, hxe⟩ := List.mem_iff_get.mp hx
    have hNj : ((data.drop i).takeWhile (fun x => p.isPrefixOf x.path)).length + j <
        (data.drop i).length := by
      simp only [List.length_drop] at hj ⊢
      omega
    have hxg : x = (data.drop i).get ⟨_ + j, hNj⟩ := by
      rw [← hxe, List.get_drop (data.drop i) hNj]
    have hpred : ¬ (p.isPrefixOf x.path = true) := by
      rw [hxg]
      intro hp2
      have := (hpart _ hNj).mp hp2
      omega
    simp only [isChildPath, Bool.and_eq_true] at hcp
    exact hpred hcp.1
  have hmid : ((data.drop i).take
        ((data.drop i).takeWhile (fun x => p.isPrefixOf x.path)).length).filter
        (fun x => x.depth == p.length + 1) =
      ((data.drop i).take
        ((data.drop i).takeWhile (fun x => p.isPrefixOf x.path)).length).filter
        (fun x => isChildPath p x.path) := by
    refine List.filter_congr ?_
    intro x hx
    obtain ⟨⟨j, hj⟩, hxe⟩ := List.mem_iff_get.mp hx
    have hjN : j < ((data.drop i).takeWhile (fun x => p.isPrefixOf x.path)).length := by
      simp only [List.length_take] at hj
      omega
    have hjt : j < (data.drop i).length := by omega
    have hxg : x = (data.drop i).get ⟨j, hjt⟩ := by
      rw [← hxe, List.get_take']
    have hpred : p.isPrefixOf x.path = true := by
      rw [hxg]
      exact (hpart j hjt).mpr hjN
    have hxd : x.depth = x.path.length :=
      hdc x (List.mem_of_mem_drop (List.mem_of_mem_take hx))
    simp only [isChildPath, hpred, Bool.true_and, hxd]
  rw [hmid]
  conv_rhs => rw [hsplit1,
    ← List.take_append_drop
      ((data.drop i).takeWhile (fun x => p.isPrefixOf x.path)).length (data.drop i)]
  rw [List.filter_append, List.filter_append, hleft, hright, List.nil_append,
    List.append_nil]

theorem accumulateGo_isSome :
    ∀ (l : List Info) (sums : Nat → Nat) (prevDepth : Nat),
      prevDepth < 4096 → (∀ e ∈ l, e.depth < 4096) →
      (accumulateGo sums prevDepth l).isSome = true
  | [], _, _, _, _ => rfl
  | e :: rest, sums, prevDepth, hp, hl => by
    have hd : e.depth < 4096 := hl e (List.mem_cons_self _ _)
    have hrest : ∀ x ∈ rest, x.depth < 4096 := fun x hx => hl x (List.mem_cons_of_mem _ hx)
    simp only [accumulateGo]
    by_cases hf : e.depth < prevDepth
    · simp only [if_pos hf, if_pos hp, if_pos hd]
      have hih := accumulateGo_isSome rest
        (Function.update (Function.update sums prevDepth 0) e.depth
          ((Function.update sums prevDepth 0) e.depth + (e.size + sums prevDepth)))
        e.depth hd hrest
      cases hres : accumulateGo
          (Function.update (Function.update sums prevDepth 0) e.depth
            ((Function.update sums prevDepth 0) e.depth + (e.size + sums prevDepth)))
          e.depth rest with
      | none => rw [hres] at hih; simp at hih
      | some out => simp [hres]
    · simp only [if_neg hf, if_pos hd]
      have hih := accumulateGo_isSome rest
        (Function.update sums e.depth (sums e.depth + e.size)) e.depth hd hrest
      cases hres : accumulateGo
          (Function.update sums e.depth (sums e.depth + e.size)) e.depth rest with
      | none => rw [hres] at hih; simp at hih
      | some out => simp [hres]

/-- The Aggregation Pass completes (no out-of-bounds panic) whenever
every entry's depth fits the 4096 accumulator slots. -/
theorem accumulate_isSome (data : List Info) (h : ∀ e ∈ data, e.depth < 4096) :
    (Tree.accumulate data).isSome = true := by
  unfold Tree.accumulate
  have := accumulateGo_isSome data.reverse (fun _ => 0) 0 (by omega)
    (fun e he => h e (List.mem_reverse.mp he))
  cases hres : accumulateGo (fun _ => 0) 0 data.reverse with
  | none => rw [hres] at this; simp at this
  | some out => simp

/-! ## The steal loop of the Concurrent Scanner (src/main.rs lines 142-155)

One steal attempt on a peer returns `Steal::Success(path)`,
`Steal::Empty` or `Steal::Retry`. The inner `while let` retries one peer
until the attempt settles, so a peer's observable behaviour in the loop
is: some number of `Retry` responses followed by a settled outcome —
`Stealer` records exactly that. The syntactic tri-state enum is kept as
`StealRes` to mirror `crossbeam_deque::Steal`. -/

inductive StealRes where
  | success (p : PathT)
  | empty
  | retry

/-- A peer's behaviour under repeated steal attempts: `retries` times
`Steal::Retry`, then the settled outcome (`some p` = `Success p`,
`none` = `Empty`). -/
structure Stealer where
  retries : Nat
  outcome : Option PathT

/-- The response to the `n`-th steal attempt on a peer. -/
def Stealer.attempt (s : Stealer) (n : Nat) : StealRes :=
  if n < s.retries then .retry
  else match s.outcome with
    | some p => .success p
    | none => .empty

/-- The inner `while let Some(_) = match s.steal() ... {}` loop (lines
148-152): keep polling one peer while it reports `Retry`; stop with its
settled outcome. Structurally recursive on the number of remaining
retries. -/
def pollPeer (s : Stealer) : Nat → Option PathT
  | 0 =>
    match s.attempt s.retries with
    | .success p => some p
    | .empty => none
    | .retry => none
  | n + 1 =>
    match s.attempt (s.retries - (n + 1)) with
    | .success p => some p
    | .empty => none
    | .retry => pollPeer s n

/-- The `for s in &stealers` loop (lines 146-153): try each peer in
order, settling each; the first `Success` is returned, a settled `Empty`
moves on to the next peer; `None` if every peer settled to `Empty`. -/
def stealSweep : List Stealer → Option PathT
  | [] => none
  | s :: ss =>
    match pollPeer s s.retries with
    | some p => some p
    | none => stealSweep ss

/-- One iteration head of the worker loop (lines 143-155):
`worker.pop().or_else(steal sweep)`. The worker thread terminates (the
`break` at line 193) exactly when this is `none`. -/
def workerTake (localPop : Option PathT) (ss : List Stealer) : Option PathT :=
  match localPop with
  | some p => some p
  | none => stealSweep ss

/-- Polling a peer until it settles yields its settled outcome: `Retry`
responses are always retried, never treated as `Empty`. -/
theorem pollPeer_settles (s : Stealer) : ∀ k, k ≤ s.retries → pollPeer s k = s.outcome := by
  intro k
  induction k with
  | zero =>
    intro _
    simp only [pollPeer, Stealer.attempt, lt_irrefl, if_neg (lt_irrefl _)]
    cases s.outcome <;> rfl
  | succ n ih =>
    intro hk
    have hlt : s.retries - (n + 1) < s.retries := by omega
    simp only [pollPeer, Stealer.attempt, if_pos hlt]
    exact ih (by omega)

theorem flatForestA_pairwise (rootDev : Nat) (p : PathT) (cs : List FsNode)
    (hwf : wfForest cs = true) :
    (flatForestA rootDev p cs).Pairwise (fun a b => a.path < b.path) := by
  have h := flatForest_pairwise rootDev p cs hwf
  rw [← List.pairwise_map (f := Info.path)] at h ⊢
  rw [agrees_map_path (flatForestA_agrees rootDev p cs)]
  exact h

theorem outA_pairwise (rootDev : Nat) (rootPath : PathT) (szR : Nat) (cs : List FsNode)
    (hwf : wfForest cs = true) :
    ((⟨rootPath, rootPath.length, szR, true⟩ : Info) ::
        flatForestA rootDev rootPath cs).Pairwise (fun a b => a.path < b.path) := by
  refine List.pairwise_cons.mpr ⟨?_, flatForestA_pairwise rootDev rootPath cs hwf⟩
  intro e he
  obtain ⟨a, s, _, hp, _⟩ := flatForestA_shape rootDev rootPath cs e he
  show rootPath < e.path
  refine path_lt_of_prefix_ne ⟨a :: s, hp.symm⟩ ?_
  intro h
  have := congrArg List.length (h.trans hp)
  simp at this

theorem outA_depth (rootDev : Nat) (rootPath : PathT) (szR : Nat) (cs : List FsNode) :
    ∀ e ∈ (⟨rootPath, rootPath.length, szR, true⟩ : Info) ::
        flatForestA rootDev rootPath cs, e.depth = e.path.length := by
  intro e he
  rcases List.mem_cons.mp he with rfl | he'
  · rfl
  · obtain ⟨a, s, _, hp, hd⟩ := flatForestA_shape rootDev rootPath cs e he'
    rw [hp, hd]
    simp
    omega

/-- A stat'ed child that is a symlink or lives on another device is
"skipped": the loop `continue`s with no Entry Record and no push. -/
theorem scanChild_skip (rootDev : Nat) (p : PathT) (c : FsNode)
    (hstat : c.meta.statOk = true)
    (hskip : (c.meta.isLink || rootDev != c.meta.dev) = true) :
    scanChild rootDev p c = some [] := by
  cases c with
  | file nm m =>
    simp only [FsNode.meta] at hstat hskip
    simp [scanChild, hstat, hskip]
  | dir nm m readable cs =>
    simp only [FsNode.meta] at hstat hskip
    simp [scanChild, hstat, hskip]

/-- Deleting a skipped child from a directory listing leaves the scan of
that listing unchanged — a skipped child contributes nothing, anywhere
in the listing. -/
theorem scanForest_erase_skipped (rootDev : Nat) (p : PathT) (c : FsNode)
    (hstat : c.meta.statOk = true)
    (hskip : (c.meta.isLink || rootDev != c.meta.dev) = true) :
    ∀ (l1 l2 : List FsNode),
      scanForest rootDev p (l1 ++ c :: l2) = scanForest rootDev p (l1 ++ l2)
  | [], l2 => by
    simp only [List.nil_append, scanForest, scanChild_skip rootDev p c hstat hskip]
    cases scanForest rootDev p l2 <;> simp
  | a :: l1, l2 => by
    simp only [List.cons_append, scanForest, List.append_eq]
    rw [scanForest_erase_skipped rootDev p c hstat hskip l1 l2]

/-- A child whose stat fails poisons the whole directory scan (the
`unwrap` at line 167 panics the worker, aborting the scan), wherever the
child sits in the listing. -/
theorem scanForest_stat_failure (rootDev : Nat) (p : PathT) (c : FsNode)
    (hstat : c.meta.statOk = false) :
    ∀ (l1 l2 : List FsNode), scanForest rootDev p (l1 ++ c :: l2) = none
  | [], l2 => by
    have hc : scanChild rootDev p c = none := by
      cases c with
      | file nm m =>
        simp only [FsNode.meta] at hstat
        simp [scanChild, hstat]
      | dir nm m readable cs =>
        simp only [FsNode.meta] at hstat
        simp [scanChild, hstat]
    simp [scanForest, hc]
  | a :: l1, l2 => by
    simp only [List.cons_append, scanForest, List.append_eq]
    rw [scanForest_stat_failure rootDev p c hstat l1 l2]
    cases scanChild rootDev p a <;> rfl

theorem stealSweep_none_iff :
    ∀ ss : List Stealer, (stealSweep ss = none ↔ ∀ s ∈ ss, s.outcome = none)
  | [] => by simp [stealSweep]
  | s :: ss => by
    simp only [stealSweep, pollPeer_settles s s.retries (le_refl _)]
    cases ho : s.outcome with
    | some p => simp [ho]
    | none => simpa [ho] using stealSweep_none_iff ss

/-- `main` (src/main.rs lines 274-283): scan; in benchmark mode exit
immediately (line 280), otherwise preprocess and enter the interactive
loop. The value is the Scan Result the program holds when it reaches its
final phase (`exit(0)` resp. the UI loop). -/
def mainTree (benchmark : Bool) (rootPath : PathT) (root : FsNode) : Option (List Info) :=
  match scan rootPath root with
  | none => none
  | some l => if benchmark then some l else Tree.preprocess l

example : ([1,2] : List Nat) < [1,3] := by decide

/-! ## Concrete example trees used by the scenario claim, the
counterexamples and the witnesses -/

/-- Healthy metadata on the root device with stat size `s`. -/
def exMeta (s : Nat) : FMeta := ⟨false, 0, s, true⟩

/-- Byte string of the name "root". -/
def exNm : Comp := [114, 111, 111, 116]

/-- Children of the scenario tree: a.txt=100, dir1/(b.txt=200,
dir2/(c.txt=50)), names as their ASCII bytes. -/
def exChildren : List FsNode :=
  [ .file [97, 46, 116, 120, 116] (exMeta 100)
  , .dir [100, 105, 114, 49] (exMeta 0) true
      [ .file [98, 46, 116, 120, 116] (exMeta 200)
      , .dir [100, 105, 114, 50] (exMeta 0) true
          [ .file [99, 46, 116, 120, 116] (exMeta 50) ] ] ]

/-- The spec's scenario tree rooted at "root". -/
def exTree : FsNode := .dir exNm (exMeta 0) true exChildren

def exPath : PathT := [exNm]

/-- The Scan Result of the scenario tree (already in path order). -/
def exPre : List Info :=
  [ ⟨[exNm], 1, 0, true⟩
  , ⟨[exNm, [97, 46, 116, 120, 116]], 2, 100, false⟩
  , ⟨[exNm, [100, 105, 114, 49]], 2, 0, true⟩
  , ⟨[exNm, [100, 105, 114, 49], [98, 46, 116, 120, 116]], 3, 200, false⟩
  , ⟨[exNm, [100, 105, 114, 49], [100, 105, 114, 50]], 3, 0, true⟩
  , ⟨[exNm, [100, 105, 114, 49], [100, 105, 114, 50], [99, 46, 116, 120, 116]], 4, 50, false⟩ ]

/-- The scenario tree after the Aggregation Pass: root=350, dir1=250,
dir2=50, files untouched. -/
def exOut : List Info :=
  [ ⟨[exNm], 1, 350, true⟩
  , ⟨[exNm, [97, 46, 116, 120, 116]], 2, 100, false⟩
  , ⟨[exNm, [100, 105, 114, 49]], 2, 250, true⟩
  , ⟨[exNm, [100, 105, 114, 49], [98, 46, 116, 120, 116]], 3, 200, false⟩
  , ⟨[exNm, [100, 105, 114, 49], [100, 105, 114, 50]], 3, 50, true⟩
  , ⟨[exNm, [100, 105, 114, 49], [100, 105, 114, 50], [99, 46, 116, 120, 116]], 4, 50, false⟩ ]

/-! ## C1 -/

/-- Root with a nonzero stat size (7) over a single 100-byte file. -/
def rootStatTree : FsNode := .dir [114] ⟨false, 0, 7, true⟩ true [.file [97] (exMeta 100)]

/-- C1, counterexample to the claim as stated: the aggregated root size
is the root directory's own stat size (7) plus the file total (100), not
the bare sum (100) of the raw sizes of the reachable files. -/
theorem C1_counterexample :
    ((scan [[114]] rootStatTree).bind Tree.preprocess).map (fun out => out.headI.size) =
      some 107 ∧
    forestTotal 0 [FsNode.file [97] (exMeta 100)] = 100 ∧ (107 : Nat) ≠ 100 := by
  refine ⟨by decide, by decide, by decide⟩

/-- C1 witness: the conservation theorem applied to the scenario tree. -/
theorem C1_witness :
    exOut.length = exPre.length ∧
    (∀ i (hi : i < exOut.length) (hip : i < exPre.length),
        ((exOut.get ⟨i, hi⟩).isDir = true →
          (exOut.get ⟨i, hi⟩).size = (exPre.get ⟨i, hip⟩).size +
            sumSizes (exOut.filter (fun x => isChildPath (exOut.get ⟨i, hi⟩).path x.path))) ∧
        ((exOut.get ⟨i, hi⟩).isDir = false →
          (exOut.get ⟨i, hi⟩).size = (exPre.get ⟨i, hip⟩).size)) ∧
    (∃ r rest, exOut = r :: rest ∧
      r.size = (exMeta 0).sz + forestTotal (exMeta 0).dev exChildren) :=
  C1_conservation exPath exNm (exMeta 0) exChildren exPre exOut (by decide) (by decide)
    (by decide) (by decide) (by decide)

/-! ## C2 -/

/-- Strict descendant relation on paths (component-wise). -/
def isStrictDesc (p q : PathT) : Prop := p <+: q ∧ p ≠ q

/-- C2: after the sort step of `Tree::preprocess`, for every directory
entry D the entries whose path strictly descends from D's form a single
contiguous run immediately after D: nothing at or before D's position is
a strict descendant, and the strict descendants are downward closed
towards D among the later positions. The component-wise path order makes
this hold for arbitrary byte components, including bytes that sort below
the path separator in raw byte comparison. -/
theorem C2_contiguity (data : List Info) (hnd : (data.map Info.path).Nodup)
    (i : Nat) (hi : i < (sortByPath data).length)
    (hdir : ((sortByPath data).get ⟨i, hi⟩).isDir = true) :
    (∀ j (hj : j < (sortByPath data).length), j ≤ i →
        ¬ isStrictDesc ((sortByPath data).get ⟨i, hi⟩).path
            ((sortByPath data).get ⟨j, hj⟩).path) ∧
    (∀ j k (hj : j < (sortByPath data).length) (hk : k < (sortByPath data).length),
        i < j → j ≤ k →
        isStrictDesc ((sortByPath data).get ⟨i, hi⟩).path
          ((sortByPath data).get ⟨k, hk⟩).path →
        isStrictDesc ((sortByPath data).get ⟨i, hi⟩).path
          ((sortByPath data).get ⟨j, hj⟩).path) := by
  have hsorted : List.Sorted infoLe (sortByPath data) := List.sorted_insertionSort infoLe data
  have hndl : ((sortByPath data).map Info.path).Nodup :=
    (((List.perm_insertionSort infoLe data).map Info.path).nodup_iff).mpr hnd
  constructor
  · intro j hj hle hdesc
    rcases Nat.eq_or_lt_of_le hle with rfl | hlt
    · exact hdesc.2 rfl
    · have hlt2 : infoLe ((sortByPath data).get ⟨j, hj⟩) ((sortByPath data).get ⟨i, hi⟩) :=
        hsorted.rel_get_of_lt (Fin.mk_lt_mk.mpr hlt)
      have hplt := path_lt_of_prefix_ne hdesc.1 hdesc.2
      exact absurd (lt_of_lt_of_le hplt hlt2) (lt_irrefl _)
  · intro j k hj hk hij hjk hdesck
    have hlej : infoLe ((sortByPath data).get ⟨i, hi⟩) ((sortByPath data).get ⟨j, hj⟩) :=
      hsorted.rel_get_of_lt (Fin.mk_lt_mk.mpr hij)
    have hlejk : ((sortByPath data).get ⟨j, hj⟩).path ≤
        ((sortByPath data).get ⟨k, hk⟩).path := by
      rcases Nat.eq_or_lt_of_le hjk with rfl | hlt
      · exact le_refl _
      · exact hsorted.rel_get_of_lt (Fin.mk_lt_mk.mpr hlt)
    have hpre := path_prefix_of_between hlej hlejk hdesck.1
    refine ⟨hpre, ?_⟩
    intro heq
    have hmi : i < ((sortByPath data).map Info.path).length := by simpa using hi
    have hmj : j < ((sortByPath data).map Info.path).length := by simpa using hj
    have hgm : ((sortByPath data).map Info.path).get ⟨i, hmi⟩ =
        ((sortByPath data).map Info.path).get ⟨j, hmj⟩ := by
      rw [List.get_map, List.get_map]
      exact heq
    have hfe := (hndl.get_inj_iff).mp hgm
    have : i = j := by simpa using hfe
    omega

/-- C2 witness: the contiguity statement at the scenario scan, with D
the dir1 entry (index 2 of the sorted index). -/
theorem C2_witness :
    (∀ j (hj : j < (sortByPath exPre).length), j ≤ 2 →
        ¬ isStrictDesc ((sortByPath exPre).get ⟨2, by decide⟩).path
            ((sortByPath exPre).get ⟨j, hj⟩).path) ∧
    (∀ j k (hj : j < (sortByPath exPre).length) (hk : k < (sortByPath exPre).length),
        2 < j → j ≤ k →
        isStrictDesc ((sortByPath exPre).get ⟨2, by decide⟩).path
          ((sortByPath exPre).get ⟨k, hk⟩).path →
        isStrictDesc ((sortByPath exPre).get ⟨2, by decide⟩).path
          ((sortByPath exPre).get ⟨j, hj⟩).path) :=
  C2_contiguity exPre (by decide) 2 (by decide) (by decide)

/-! ## C3 -/

/-- C3: the spec's scenario. Scanning, sorting and aggregating the tree
root/(a.txt=100, dir1/(b.txt=200, dir2/(c.txt=50))) yields aggregated
sizes dir2=50, dir1=250, root=350 (see `exOut`), and list_children(root)
returns the dir1 entry (250) before the a.txt entry (100). -/
theorem C3_scenario :
    (scan exPath exTree).bind Tree.preprocess = some exOut ∧
    ((scan exPath exTree).bind Tree.preprocess).bind (fun l => Tree.get l exPath) =
      some [ ⟨[exNm, [100, 105, 114, 49]], 2, 250, true⟩
           , ⟨[exNm, [97, 46, 116, 120, 116]], 2, 100, false⟩ ] := by
  constructor
  · decide
  · decide

/-! ## C4 -/

/-- A directory whose canonicalized path has 4096 components. -/
def deepPath : PathT := List.replicate 4096 [48]

/-- A childless, readable, healthy directory to scan at `deepPath`. -/
def deepRoot : FsNode := .dir [48] (exMeta 0) true []

/-- C4, counterexample to the claim as stated: the accumulator is a
fixed `[u64; 4096]` array, not a growable structure; scanning a root
whose path has 4096 components succeeds, but `Tree::accumulate` indexes
`sums[4096]` out of bounds (modelled by `none`). -/
theorem C4_counterexample :
    (scan deepPath deepRoot).isSome = true ∧
    (scan deepPath deepRoot).bind Tree.accumulate = none := by
  have hlen : deepPath.length = 4096 := by
    rw [deepPath, List.length_replicate]
  have hscan : scan deepPath deepRoot = some [⟨deepPath, 4096, 0, true⟩] := by
    simp [scan, deepRoot, scanForest, exMeta, hlen]
  refine ⟨by rw [hscan]; rfl, ?_⟩
  rw [hscan]
  show Tree.accumulate [⟨deepPath, 4096, 0, true⟩] = none
  unfold Tree.accumulate
  rw [List.reverse_singleton]
  simp only [accumulateGo]
  norm_num

/-- C4 (amended): `Tree::accumulate` completes without out-of-bounds
access on every input all of whose entry depths are below the 4096
accumulator slots. -/
theorem C4_accumulate_in_bounds (data : List Info) (h : ∀ e ∈ data, e.depth < 4096) :
    (Tree.accumulate data).isSome = true :=
  accumulate_isSome data h

/-- C4 witness: the amended bound theorem at the scenario Scan Result. -/
theorem C4_witness :
    (∀ e ∈ exPre, e.depth < 4096) ∧ (Tree.accumulate exPre).isSome = true :=
  ⟨by decide, C4_accumulate_in_bounds exPre (by decide)⟩

/-! ## C5 -/

/-- C5: for a directory path `q` of the preprocessed scan of a
well-formed tree, `Tree::get` succeeds and returns exactly the entries
of the index whose path extends `q` by one component (its immediate
children, with their post-aggregation sizes), sorted descending by
size, and — the query being a pure function of the index — repeated
calls agree. -/
theorem C5_list_children (rootPath : PathT) (nm : Comp) (m : FMeta) (cs : List FsNode)
    (pre out : List Info) (q : PathT) (i : Nat)
    (hwf : wfForest cs = true)
    (hdep : depthsOkForest (rootPath.length + 1) cs = true)
    (hk : rootPath.length < 4096)
    (hscan : scan rootPath (.dir nm m true cs) = some pre)
    (hpp : Tree.preprocess pre = some out)
    (hi : i < out.length)
    (hdir : (out.get ⟨i, hi⟩).isDir = true)
    (hq : (out.get ⟨i, hi⟩).path = q) :
    ∃ items, Tree.get out q = some items ∧
      items.Perm (out.filter (fun x => q.isPrefixOf x.path && x.depth == q.length + 1)) ∧
      items.Pairwise sizeGe ∧
      Tree.get out q = Tree.get out q := by
  have hpp2 := preprocess_scan hwf hdep hk hscan
  rw [hpp] at hpp2
  have hout : out = ⟨rootPath, rootPath.length, m.sz + forestTotal m.dev cs, true⟩ ::
      flatForestA m.dev rootPath cs := by
    injection hpp2
  have hsort : out.Pairwise (fun a b => a.path < b.path) := by
    rw [hout]
    exact outA_pairwise m.dev rootPath _ cs hwf
  have hdc : ∀ e ∈ out, e.depth = e.path.length := by
    rw [hout]
    exact outA_depth m.dev rootPath _ cs
  have hget := get_children out q hsort hdc i hi hq
  refine ⟨_, hget, ?_, ?_, rfl⟩
  · have hfe : out.filter (fun x => isChildPath q x.path) =
        out.filter (fun x => q.isPrefixOf x.path && x.depth == q.length + 1) := by
      refine List.filter_congr ?_
      intro x hx
      simp only [isChildPath, ← hdc x hx]
    rw [← hfe]
    exact List.perm_insertionSort sizeGe _
  · exact List.sorted_insertionSort sizeGe _

/-- C5 witness: the query theorem at the scenario tree, querying the
root directory itself. -/
theorem C5_witness :
    ∃ items, Tree.get exOut exPath = some items ∧
      items.Perm (exOut.filter
        (fun x => exPath.isPrefixOf x.path && x.depth == exPath.length + 1)) ∧
      items.Pairwise sizeGe ∧
      Tree.get exOut exPath = Tree.get exOut exPath :=
  C5_list_children exPath exNm (exMeta 0) exChildren exPre exOut exPath 0 (by decide)
    (by decide) (by decide) (by decide) (by decide) (by decide) (by decide) (by decide)

/-! ## C6 -/

/-- C6: a stat'ed child that is a symbolic link or lives on a device
other than the root's is skipped entirely: it gets no Entry Record and
is never expanded (`scanChild` returns the empty contribution), and
deleting it from its directory's listing leaves the whole scan of that
listing — hence every ancestor's aggregated size downstream —
unchanged. -/
theorem C6_skip_excluded (rootDev : Nat) (p : PathT) (l1 l2 : List FsNode) (c : FsNode)
    (hstat : c.meta.statOk = true)
    (hskip : (c.meta.isLink || rootDev != c.meta.dev) = true) :
    scanChild rootDev p c = some [] ∧
    scanForest rootDev p (l1 ++ c :: l2) = scanForest rootDev p (l1 ++ l2) :=
  ⟨scanChild_skip rootDev p c hstat hskip,
   scanForest_erase_skipped rootDev p c hstat hskip l1 l2⟩

/-- A symbolic link to a large file, and a file on another device. -/
def exSymlink : FsNode := .file [115] ⟨true, 0, 999999, true⟩

def exOtherDev : FsNode := .dir [109] ⟨false, 5, 0, true⟩ true [.file [120] ⟨false, 5, 7, true⟩]

/-- C6 witness: skipping a symlink sitting between two real files. -/
theorem C6_witness :
    scanChild 0 [[114]] exSymlink = some [] ∧
    scanForest 0 [[114]] ([.file [97] (exMeta 1)] ++ exSymlink :: [.file [122] (exMeta 2)]) =
      scanForest 0 [[114]] ([.file [97] (exMeta 1)] ++ [.file [122] (exMeta 2)]) :=
  C6_skip_excluded 0 [[114]] [.file [97] (exMeta 1)] [.file [122] (exMeta 2)] exSymlink
    (by decide) (by decide)

/-! ## C7 -/

/-- C7, counterexample to the claim as stated: in benchmark mode the
program exits right after the scan, before `Tree::preprocess`, so its
final tree differs from the aggregated one (which would exist: the
pipeline on the same tree succeeds). -/
theorem C7_counterexample :
    mainTree true exPath exTree ≠ (scan exPath exTree).bind Tree.preprocess ∧
    ((scan exPath exTree).bind Tree.preprocess).isSome = true := by
  constructor
  · decide
  · decide

/-- C7 (amended): benchmark mode performs only the scan and exits
before sorting and aggregation; normal mode scans, preprocesses and
then enters the interactive loop. -/
theorem C7_benchmark_scan_only (rootPath : PathT) (root : FsNode) :
    mainTree true rootPath root = scan rootPath root ∧
    mainTree false rootPath root = (scan rootPath root).bind Tree.preprocess := by
  unfold mainTree
  cases scan rootPath root <;> simp

/-! ## C8 -/

/-- C8, amended: a failing per-entry metadata stat anywhere in a
directory listing aborts the scan of that listing (the `unwrap` at line
167 panics the worker) instead of skipping the entry. -/
theorem C8_stat_failure_aborts (rootDev : Nat) (p : PathT) (l1 l2 : List FsNode)
    (c : FsNode) (hstat : c.meta.statOk = false) :
    scanForest rootDev p (l1 ++ c :: l2) = none :=
  scanForest_stat_failure rootDev p c hstat l1 l2

/-- A file whose stat fails mid-scan (deleted between listing and
stating). -/
def statFailFile : FsNode := .file [98] ⟨false, 0, 11, false⟩

/-- C8, counterexample to the claim as stated: with the failing-stat
file between two healthy files the whole scan aborts (`none`), while
without it the same tree scans fine — nothing was "skipped and
continued". -/
theorem C8_counterexample :
    scan [[114]] (.dir [114] (exMeta 0) true
      [.file [97] (exMeta 10), statFailFile, .file [99] (exMeta 12)]) = none ∧
    scan [[114]] (.dir [114] (exMeta 0) true
      [.file [97] (exMeta 10), .file [99] (exMeta 12)]) =
      some [ ⟨[[114]], 1, 0, true⟩
           , ⟨[[114], [97]], 2, 10, false⟩
           , ⟨[[114], [99]], 2, 12, false⟩ ] := by
  constructor
  · decide
  · decide

/-- C8 witness: the abort theorem at the concrete failing listing. -/
theorem C8_witness :
    scanForest 0 [[114]] ([.file [97] (exMeta 10)] ++ statFailFile ::
      [.file [99] (exMeta 12)]) = none :=
  C8_stat_failure_aborts 0 [[114]] [.file [97] (exMeta 10)] [.file [99] (exMeta 12)]
    statFailFile (by decide)

/-! ## C9 -/

/-- C9: when listing a directory fails (`readable = false`, the ignored
`fs::read_dir` error), the failure is not fatal: the directory's own
Entry Record — emitted when its parent was expanded — is still produced,
it contributes zero children, and the scan completes exactly as if the
directory were empty, whatever (even un-stat-able) children it hides. -/
theorem C9_unreadable_dir (rootDev : Nat) (p : PathT) (nm : Comp) (m : FMeta)
    (cs : List FsNode) (hstat : m.statOk = true)
    (hskip : (m.isLink || rootDev != m.dev) = false) :
    scanChild rootDev p (.dir nm m false cs) =
      some [⟨p ++ [nm], (p ++ [nm]).length, 0, true⟩] ∧
    scanChild rootDev p (.dir nm m false cs) = scanChild rootDev p (.dir nm m false []) := by
  constructor
  · simp [scanChild, hstat, hskip]
  · simp [scanChild, hstat, hskip]

/-- C9 witness: an unreadable directory hiding a child whose stat would
fail; the scan still emits exactly the directory's own record. -/
theorem C9_witness :
    scanChild 0 [[114]] (.dir [100] (exMeta 0) false [statFailFile]) =
      some [⟨[[114]] ++ [[100]], ([[114]] ++ [[100]] : PathT).length, 0, true⟩] ∧
    scanChild 0 [[114]] (.dir [100] (exMeta 0) false [statFailFile]) =
      scanChild 0 [[114]] (.dir [100] (exMeta 0) false []) :=
  C9_unreadable_dir 0 [[114]] [100] (exMeta 0) [statFailFile] (by decide) (by decide)

/-! ## C10 -/

/-- C10: in the steal loop a peer is treated as empty only once a steal
attempt settles to `Empty`: polling a peer through all its `Retry`
responses yields its settled outcome, and one iteration head of the
worker loop returns nothing — the loop's `break` — exactly when the
local pop is empty and every peer of the sweep settled to `Empty`. -/
theorem C10_steal_tristate :
    (∀ s : Stealer, pollPeer s s.retries = s.outcome) ∧
    (∀ (localPop : Option PathT) (ss : List Stealer),
      workerTake localPop ss = none ↔ localPop = none ∧ ∀ s ∈ ss, s.outcome = none) := by
  constructor
  · intro s
    exact pollPeer_settles s s.retries (le_refl _)
  · intro localPop ss
    cases localPop with
    | some p => simp [workerTake]
    | none => simpa [workerTake] using stealSweep_none_iff ss

end Adansonia
